import Mathlib

/-!
# CObjectPool (ObjectPool.cpp): a shallow embedding and its properties

The pool of ObjectPool.cpp is embedded as a record of its member variables.
The embedding fixes the Win32 x86 data model of the source: `unsigned int`,
`size_t` and pointers are 32 bits wide, so every counter update is taken
modulo `2 ^ 32`.

* The intrusive doubly linked segment list (`DLINK`) is a `List SEGMENT` in list
  order; the intrusive singly linked free list (`SLINK`) of a segment is the list
  of the `nBufferIndex` values of its free buffers, top of the stack first.
* A buffer is named by the base address of its segment and its `nBufferIndex`;
  this is what `Free` recovers from the payload pointer in lines 202-209.
* `VirtualAlloc` is the operating system: the environment proposes a base
  address, and the request is granted when the region lies inside the address
  space and overlaps no region that the pool still holds.
* The field `mapped` is a ghost field: the regions obtained from `VirtualAlloc`
  and not yet given back with `VirtualFree`. These regions are pairwise disjoint
  and lie in the address space, which bounds the number of segments of a pool
  (`capacity`): on reachable states no counter wraps around, except for the
  intermediate value of `m_nFreeBuffers` in `Free`.
-/

namespace ObjectPool

/-! ## Machine arithmetic -/

/-- Number of values of an `unsigned int`, a `size_t` or a pointer. -/
def WORD : Nat := 2 ^ 32

/-- Unsigned 32 bit addition. -/
def uadd (a b : Nat) : Nat := (a + b) % WORD

/-- Unsigned 32 bit subtraction (wraps around below zero). -/
def usub (a b : Nat) : Nat := (a + (WORD - b % WORD)) % WORD

/-- Unsigned 32 bit multiplication. -/
def umul (a b : Nat) : Nat := (a * b) % WORD

/-- Bitwise complement of a 32 bit value. -/
def unot (a : Nat) : Nat := WORD - 1 - a % WORD

/-- Function `MemAlign` (lines 27-31):
`(val + alignment - 1) & ~(alignment - 1)` on `size_t`. -/
def MemAlign (val alignment : Nat) : Nat :=
  (usub (uadd val alignment) 1) &&& (unot (usub alignment 1))

/-! ## Layout constants (x86, release build) -/

/-- Modelled from the spec: `SLINK` of objectpool.h is the link of the intrusive
singly linked free list, one pointer. -/
def sizeofSLINK : Nat := 4

/-- Modelled from the spec: `DLINK` of objectpool.h is the link of the intrusive
doubly linked segment list, two pointers (next and previous). -/
def sizeofDLINK : Nat := 8

/-- Size of `SEGMENT` (lines 34-42): a `DLINK`, an `SLINK` and a `UINT`. -/
def sizeofSEGMENT : Nat := sizeofDLINK + sizeofSLINK + 4

/-- Size of `BUFFER_HEADER` (lines 47-53): one `unsigned int`. -/
def sizeofBUFFER_HEADER : Nat := 4

/-! ## Data model -/

/-- A buffer handed to a caller: base address of its segment and its
`nBufferIndex`. -/
abbrev Buffer := Nat × Nat

/-- Record `SEGMENT` (lines 34-42), together with the address it lives at. -/
structure SEGMENT where
  /-- address of the segment, as returned by `VirtualAlloc` -/
  base : Nat
  /-- free buffers of the segment, top of the stack first -/
  FreeListHead : List Nat
  nNumberOfFreeBuffer : Nat
  deriving DecidableEq, Repr

/-- Member variables of `CObjectPool`, and the ghost field `mapped`. -/
structure CObjectPool where
  m_dwPageSize : Nat
  m_nBufferSize : Nat
  m_nNumberOfBuffersInSegment : Nat
  m_nNumberOfSegmentsLowMark : Nat
  m_nNumberOfSegmentsHighMark : Nat
  m_nCandidateDeletionLimit : Nat
  /-- active segments, in the order of the list anchored at `m_SegmentsListHead` -/
  m_SegmentsListHead : List SEGMENT
  m_pSegmentCandidateForDeletion : Option SEGMENT
  m_nFreeBuffers : Nat
  m_nNumberOfSegments : Nat
  /-- ghost: base addresses of the regions mapped and not yet released -/
  mapped : List Nat
  deriving DecidableEq, Repr

/-! ## Collaborators declared outside ObjectPool.cpp -/

/-- Modelled from the spec: `DLINK_InsertNext(&m_SegmentsListHead, x)` of
objectpool.h links `x` right after the list anchor, that is at the front. -/
def DLINK_InsertNext (x : SEGMENT) (l : List SEGMENT) : List SEGMENT := x :: l

/-- Modelled from the spec: `DLINK_InsertPrev(&m_SegmentsListHead, x)` of
objectpool.h links `x` right before the list anchor, that is at the tail. -/
def DLINK_InsertPrev (x : SEGMENT) (l : List SEGMENT) : List SEGMENT := l ++ [x]

/-- Modelled from the spec: `DLINK_Remove(&x->_link)` of objectpool.h unlinks the
segment at address `a` from the list that holds it. -/
def DLINK_Remove (a : Nat) (l : List SEGMENT) : List SEGMENT :=
  l.filter (fun s => decide (s.base ≠ a))

/-- Modelled from the spec: `SLINK_Push` of objectpool.h pushes a buffer on the
free list of a segment. -/
def SLINK_Push (l : List Nat) (i : Nat) : List Nat := i :: l

/-- Modelled from the spec: `SLINK_Pop` of objectpool.h takes the top buffer from
the free list of a segment; there is no buffer to take from an empty list. -/
def SLINK_Pop : List Nat → Option (Nat × List Nat)
  | [] => none
  | i :: l => some (i, l)

/-- Modelled from the spec: the page mapper `VirtualAlloc(NULL, size, ...)`. The
environment proposes `os`: `none` when the system refuses, `some a` for a region
at address `a`. A region is granted when it is not empty, lies inside the
address space below `WORD`, does not start at `NULL`, and overlaps none of the
regions in `live`, which have the same size. -/
def VirtualAlloc (live : List Nat) (size : Nat) (os : Option Nat) : Option Nat :=
  match os with
  | none => none
  | some a =>
    if 0 < a ∧ 0 < size ∧ a + size ≤ WORD ∧ ∀ b ∈ live, a + size ≤ b ∨ b + size ≤ a
    then some a else none

/-- Modelled from the spec: the page mapper `VirtualFree(a, 0, MEM_RELEASE)` gives
the region at address `a` back. -/
def VirtualFree (live : List Nat) (a : Nat) : List Nat := live.erase a

/-! ## Operations -/

/-- Size requested from the system for one segment (lines 321-322). -/
def segment_size (p : CObjectPool) : Nat :=
  MemAlign (uadd sizeofSEGMENT
    (umul p.m_nNumberOfBuffersInSegment (uadd sizeofBUFFER_HEADER p.m_nBufferSize)))
    p.m_dwPageSize

/-- Loop of lines 346-364: buffers `0, 1, ..` are pushed in this order. -/
def initFreeList (n : Nat) : List Nat :=
  (List.range n).foldl SLINK_Push []

/-- Function `CObjectPool::AllocateSegment` (lines 314-373). The flag is the
returned `bool`. -/
def AllocateSegment (p : CObjectPool) (os : Option Nat) : CObjectPool × Bool :=
  match VirtualAlloc p.mapped (segment_size p) os with
  | none => (p, false)
  | some a =>
    let pSegment : SEGMENT :=
      { base := a
        FreeListHead := initFreeList p.m_nNumberOfBuffersInSegment
        nNumberOfFreeBuffer := p.m_nNumberOfBuffersInSegment }
    ({ p with
        m_SegmentsListHead := DLINK_InsertNext pSegment p.m_SegmentsListHead
        m_nFreeBuffers := uadd p.m_nFreeBuffers p.m_nNumberOfBuffersInSegment
        m_nNumberOfSegments := uadd p.m_nNumberOfSegments 1
        mapped := a :: p.mapped }, true)

/-- Lines 150-171 of `CObjectPool::Allocate`: take a buffer from the first
segment. `none` stands for undefined behaviour: the list anchor read as a
segment, or a pop from an empty free list. -/
def takeBuffer (p : CObjectPool) : Option (CObjectPool × Option Buffer) :=
  match p.m_SegmentsListHead with
  | [] => none
  | pSegment :: rest =>
    match SLINK_Pop pSegment.FreeListHead with
    | none => none
    | some (i, fl) =>
      let seg : SEGMENT :=
        { pSegment with
          FreeListHead := fl
          nNumberOfFreeBuffer := usub pSegment.nNumberOfFreeBuffer 1 }
      let segs :=
        if seg.nNumberOfFreeBuffer = 0
        then DLINK_InsertPrev seg (DLINK_Remove seg.base (seg :: rest))
        else seg :: rest
      some ({ p with
               m_SegmentsListHead := segs
               m_nFreeBuffers := usub p.m_nFreeBuffers 1 }, some (pSegment.base, i))

/-- Function `CObjectPool::Allocate` (lines 117-181). The outer `none` stands for
undefined behaviour, the inner `none` for the returned `NULL`. -/
def Allocate (p : CObjectPool) (os : Option Nat) : Option (CObjectPool × Option Buffer) :=
  if p.m_nFreeBuffers = 0 then
    if p.m_nNumberOfSegments > p.m_nNumberOfSegmentsHighMark then
      some (p, none)
    else
      match p.m_pSegmentCandidateForDeletion with
      | some c =>
        takeBuffer
          { p with
            m_SegmentsListHead := DLINK_InsertNext c p.m_SegmentsListHead
            m_pSegmentCandidateForDeletion := none
            m_nFreeBuffers := uadd p.m_nFreeBuffers p.m_nNumberOfBuffersInSegment
            m_nNumberOfSegments := uadd p.m_nNumberOfSegments 1 }
      | none =>
        match AllocateSegment p os with
        | (p1, false) => some (p1, none)
        | (p1, true) => takeBuffer p1
  else takeBuffer p

/-- Function `CObjectPool::FreeSegment` (lines 383-404). -/
def FreeSegment (p : CObjectPool) (pSegment : SEGMENT) : CObjectPool :=
  { p with
    m_nFreeBuffers := usub p.m_nFreeBuffers p.m_nNumberOfBuffersInSegment
    m_nNumberOfSegments := usub p.m_nNumberOfSegments 1
    m_SegmentsListHead := DLINK_Remove pSegment.base p.m_SegmentsListHead
    mapped := VirtualFree p.mapped pSegment.base }

/-- Lines 214-225 of `CObjectPool::Free`: push the buffer on the free list of its
segment and bring the segment to the front. -/
def pushBuffer (p : CObjectPool) (s : SEGMENT) (i : Nat) : CObjectPool × SEGMENT :=
  let pSegment : SEGMENT :=
    { s with
      FreeListHead := SLINK_Push s.FreeListHead i
      nNumberOfFreeBuffer := uadd s.nNumberOfFreeBuffer 1 }
  let segs :=
    if p.m_SegmentsListHead.head?.map SEGMENT.base ≠ some s.base
    then DLINK_InsertNext pSegment (DLINK_Remove s.base p.m_SegmentsListHead)
    else pSegment :: p.m_SegmentsListHead.tail
  ({ p with m_SegmentsListHead := segs }, pSegment)

/-- Lines 227-238 of `CObjectPool::Free`: release the candidate for deletion. -/
def releaseCandidate (p : CObjectPool) : CObjectPool :=
  match p.m_pSegmentCandidateForDeletion with
  | some c =>
    if p.m_nFreeBuffers > p.m_nCandidateDeletionLimit
    then { p with
           m_pSegmentCandidateForDeletion := none
           mapped := VirtualFree p.mapped c.base }
    else p
  | none => p

/-- Lines 240-258 of `CObjectPool::Free`: retire the segment that became idle. -/
def retireSegment (p : CObjectPool) (pSegment : SEGMENT) : CObjectPool :=
  if pSegment.nNumberOfFreeBuffer = p.m_nNumberOfBuffersInSegment ∧
      p.m_nNumberOfSegments > p.m_nNumberOfSegmentsLowMark then
    match p.m_pSegmentCandidateForDeletion with
    | some _ => FreeSegment p pSegment
    | none =>
      { p with
        m_pSegmentCandidateForDeletion := some pSegment
        m_SegmentsListHead := DLINK_Remove pSegment.base p.m_SegmentsListHead
        m_nFreeBuffers := usub p.m_nFreeBuffers p.m_nNumberOfBuffersInSegment
        m_nNumberOfSegments := usub p.m_nNumberOfSegments 1 }
  else p

/-- Function `CObjectPool::Free` (lines 191-263). `none` stands for undefined
behaviour: the buffer does not belong to an active segment, which the contract
of `Free` excludes. -/
def Free (p : CObjectPool) (pBuffer : Buffer) : Option CObjectPool :=
  match p.m_SegmentsListHead.find? (fun s => decide (s.base = pBuffer.1)) with
  | none => none
  | some s =>
    let (p1, pSegment) := pushBuffer p s pBuffer.2
    let p2 := releaseCandidate p1
    let p3 := retireSegment p2 pSegment
    some { p3 with m_nFreeBuffers := uadd p3.m_nFreeBuffers 1 }

/-- Loop of lines 100-108: `n` more segments, the `i`-th answer of the system
being `os i`. `none` stands for the thrown `ERROR_OUTOFMEMORY`. -/
def allocateSegments (os : Nat → Option Nat) : Nat → Nat → CObjectPool → Option CObjectPool
  | 0, _, p => some p
  | n + 1, i, p =>
    match AllocateSegment p (os i) with
    | (_, false) => none
    | (p1, true) => allocateSegments os n (i + 1) p1

/-- Constructor `CObjectPool::CObjectPool` (lines 68-109). The page size is what
`GetSystemInfo` reports; `nCandidateDeletionLimit` is the value of
`(unsigned int)(nNumberOfBuffersInSegment * lfRatioForSegmentDeletion)`. -/
def create (dwPageSize nBufferSize nNumberOfBuffersInSegment nNumberOfSegmentsStart
    nNumberOfSegmentsLowMark nNumberOfSegmentsHighMark nCandidateDeletionLimit : Nat)
    (os : Nat → Option Nat) : Option CObjectPool :=
  allocateSegments os nNumberOfSegmentsStart 0
    { m_dwPageSize := dwPageSize
      m_nBufferSize := max nBufferSize sizeofSLINK
      m_nNumberOfBuffersInSegment := nNumberOfBuffersInSegment
      m_nNumberOfSegmentsLowMark := nNumberOfSegmentsLowMark
      m_nNumberOfSegmentsHighMark := nNumberOfSegmentsHighMark
      m_nCandidateDeletionLimit := nCandidateDeletionLimit
      m_SegmentsListHead := []
      m_pSegmentCandidateForDeletion := none
      m_nFreeBuffers := 0
      m_nNumberOfSegments := 0
      mapped := [] }

/-! ## Addresses of the buffers of a segment -/

/-- Loop of lines 346-364 on addresses: `n` more buffers, the next one with index
`i` and its header at address `p`. The index is stored in the header, the payload
starts `sizeof(BUFFER_HEADER)` bytes further and is pushed on the free list, and
the next header follows the payload. The result lists, in the order of the loop,
the address of each payload with the index stored in the header before it. -/
def initBuffers (nBufferSize : Nat) : Nat → Nat → Nat → List (Nat × Nat)
  | 0, _, _ => []
  | n + 1, i, p =>
    (uadd p sizeofBUFFER_HEADER, i) ::
      initBuffers nBufferSize n (uadd i 1) (uadd (uadd p sizeofBUFFER_HEADER) nBufferSize)

/-- Lines 344-364 of `CObjectPool::AllocateSegment` for a segment at address
`pSegment`: the first header is at `pSegment + 1`, right after the `SEGMENT`
record. -/
def segmentBuffers (pSegment nBufferSize nNumberOfBuffersInSegment : Nat) : List (Nat × Nat) :=
  initBuffers nBufferSize nNumberOfBuffersInSegment 0 (uadd pSegment sizeofSEGMENT)

/-- Lines 202-209 of `CObjectPool::Free`: the address of the segment, from the
payload pointer `pBuffer` and the `nBufferIndex` read in the header before it. -/
def owningSegment (nBufferSize pBuffer nBufferIndex : Nat) : Nat :=
  let p := usub pBuffer sizeofBUFFER_HEADER
  usub (usub p (umul nBufferIndex (uadd sizeofBUFFER_HEADER nBufferSize))) sizeofSEGMENT

/-! ## Reachable states -/

/-- Contract of the constructor: the parameter check of lines 81-85, the range
of the parameter types, a page size that is a power of two, and a segment whose
size is computed without wrapping around the address space. -/
def CreateContract (dwPageSize nBufferSize nNumberOfBuffersInSegment nNumberOfSegmentsStart
    nNumberOfSegmentsLowMark nNumberOfSegmentsHighMark nCandidateDeletionLimit : Nat) : Prop :=
  nNumberOfBuffersInSegment ≠ 0 ∧
  nNumberOfSegmentsStart ≠ 0 ∧
  nNumberOfSegmentsStart ≥ nNumberOfSegmentsLowMark ∧
  nNumberOfSegmentsStart ≤ nNumberOfSegmentsHighMark ∧
  nNumberOfSegmentsLowMark ≤ nNumberOfSegmentsHighMark ∧
  nNumberOfSegmentsHighMark < WORD ∧
  nCandidateDeletionLimit < WORD ∧
  (∃ k, k < 32 ∧ dwPageSize = 2 ^ k) ∧
  sizeofSEGMENT + nNumberOfBuffersInSegment * (sizeofBUFFER_HEADER + max nBufferSize sizeofSLINK)
    + dwPageSize ≤ WORD

/-- States of the pool that calls can reach, each with the list of the buffers
that callers hold (returned by `Allocate` and not yet passed to `Free`), most
recent first. -/
inductive Reachable : CObjectPool → List Buffer → Prop
  | create {dwPageSize nBufferSize nNumberOfBuffersInSegment nNumberOfSegmentsStart
      nNumberOfSegmentsLowMark nNumberOfSegmentsHighMark nCandidateDeletionLimit : Nat}
      {os : Nat → Option Nat} {p : CObjectPool} :
      CreateContract dwPageSize nBufferSize nNumberOfBuffersInSegment nNumberOfSegmentsStart
        nNumberOfSegmentsLowMark nNumberOfSegmentsHighMark nCandidateDeletionLimit →
      create dwPageSize nBufferSize nNumberOfBuffersInSegment nNumberOfSegmentsStart
        nNumberOfSegmentsLowMark nNumberOfSegmentsHighMark nCandidateDeletionLimit os = some p →
      Reachable p []
  | allocate {p q : CObjectPool} {out : List Buffer} {os : Option Nat} {b : Buffer} :
      Reachable p out → Allocate p os = some (q, some b) → Reachable q (b :: out)
  | allocateFailed {p q : CObjectPool} {out : List Buffer} {os : Option Nat} :
      Reachable p out → Allocate p os = some (q, none) → Reachable q out
  | free {p q : CObjectPool} {out : List Buffer} {b : Buffer} :
      Reachable p out → b ∈ out → Free p b = some q → Reachable q (out.erase b)

/-- One call on a pool: `Allocate`, with the answer the system would give to a
mapping request, or `Free`. -/
inductive Call where
  | allocate (os : Option Nat)
  | free (b : Buffer)
  deriving DecidableEq, Repr

/-- Runs a sequence of calls from a pool and the buffers held by callers. `none`
when a call has undefined behaviour or `Free` is given a buffer that no caller
holds. -/
def run : List Call → CObjectPool × List Buffer → Option (CObjectPool × List Buffer)
  | [], st => some st
  | Call.allocate os :: cs, (p, out) =>
    match Allocate p os with
    | some (q, some b) => run cs (q, b :: out)
    | some (q, none) => run cs (q, out)
    | none => none
  | Call.free b :: cs, (p, out) =>
    if b ∈ out then
      match Free p b with
      | some q => run cs (q, out.erase b)
      | none => none
    else none

/-- A run of calls of `Allocate` with no call of `Free` in between, one call for
each answer of the system in the list; the result holds the buffers returned,
first returned first. `none` when a call has undefined behaviour. -/
def allocateAll : List (Option Nat) → CObjectPool → Option (CObjectPool × List Buffer)
  | [], p => some (p, [])
  | os :: oss, p =>
    match Allocate p os with
    | none => none
    | some (q, none) => allocateAll oss q
    | some (q, some b) => (allocateAll oss q).map (fun r => (r.1, b :: r.2))

/-! ## Invariant -/

/-- A segment of a pool with `n` buffers per segment is well formed with respect
to the buffers `out` held by callers. -/
structure SegOk (n : Nat) (out : List Buffer) (s : SEGMENT) : Prop where
  count : s.nNumberOfFreeBuffer = s.FreeListHead.length
  nodup : s.FreeListHead.Nodup
  bound : ∀ i ∈ s.FreeListHead, i < n
  apart : ∀ i ∈ s.FreeListHead, (s.base, i) ∉ out

/-- Base addresses of the segments the pool holds: the active ones and the
candidate for deletion. -/
def heldBases (p : CObjectPool) : List Nat :=
  p.m_SegmentsListHead.map SEGMENT.base ++ p.m_pSegmentCandidateForDeletion.toList.map SEGMENT.base

/-- Invariant of the pool `p` whose callers hold the buffers `out`. -/
structure Inv (p : CObjectPool) (out : List Buffer) : Prop where
  buffers : p.m_nNumberOfBuffersInSegment ≠ 0
  page : ∃ k, k < 32 ∧ p.m_dwPageSize = 2 ^ k
  fits : sizeofSEGMENT + p.m_nNumberOfBuffersInSegment * (sizeofBUFFER_HEADER + p.m_nBufferSize)
    + p.m_dwPageSize ≤ WORD
  region : ∀ a ∈ p.mapped, a + segment_size p ≤ WORD
  disjoint : p.mapped.Pairwise (fun a b => a + segment_size p ≤ b ∨ b + segment_size p ≤ a)
  held : p.mapped.Perm (heldBases p)
  bases : (heldBases p).Nodup
  segs : ∀ s ∈ p.m_SegmentsListHead, SegOk p.m_nNumberOfBuffersInSegment out s
  cand : ∀ c, p.m_pSegmentCandidateForDeletion = some c →
    SegOk p.m_nNumberOfBuffersInSegment out c ∧
      c.nNumberOfFreeBuffer = p.m_nNumberOfBuffersInSegment
  outNodup : out.Nodup
  outValid : ∀ b ∈ out, b.2 < p.m_nNumberOfBuffersInSegment ∧
    b.1 ∈ p.m_SegmentsListHead.map SEGMENT.base
  sum : p.m_nFreeBuffers = (p.m_SegmentsListHead.map SEGMENT.nNumberOfFreeBuffer).sum
  segments : p.m_nNumberOfSegments = p.m_SegmentsListHead.length
  order : p.m_SegmentsListHead.Pairwise
    (fun s t => s.nNumberOfFreeBuffer = 0 → t.nNumberOfFreeBuffer = 0)
  conserve : p.m_nFreeBuffers + out.length =
    p.m_nNumberOfSegments * p.m_nNumberOfBuffersInSegment

/-! ## The operations with counters as natural numbers

On a pool that satisfies the invariant the operations coincide with the
following forms, in which no counter wraps around. -/

/-- Effect of lines 366-371 for a segment mapped at address `a`. -/
def grown (p : CObjectPool) (a : Nat) : CObjectPool :=
  { p with
    m_SegmentsListHead := DLINK_InsertNext
      { base := a
        FreeListHead := initFreeList p.m_nNumberOfBuffersInSegment
        nNumberOfFreeBuffer := p.m_nNumberOfBuffersInSegment } p.m_SegmentsListHead
    m_nFreeBuffers := p.m_nFreeBuffers + p.m_nNumberOfBuffersInSegment
    m_nNumberOfSegments := p.m_nNumberOfSegments + 1
    mapped := a :: p.mapped }

/-- Effect of lines 136-141 for the candidate `c`. -/
def reactivated (p : CObjectPool) (c : SEGMENT) : CObjectPool :=
  { p with
    m_SegmentsListHead := DLINK_InsertNext c p.m_SegmentsListHead
    m_pSegmentCandidateForDeletion := none
    m_nFreeBuffers := p.m_nFreeBuffers + p.m_nNumberOfBuffersInSegment
    m_nNumberOfSegments := p.m_nNumberOfSegments + 1 }

/-- Effect of lines 150-171 when the first segment is `s`, the list goes on with
`rest`, and the free list of `s` is `i :: fl`. -/
def took (p : CObjectPool) (s : SEGMENT) (rest : List SEGMENT) (fl : List Nat) : CObjectPool :=
  { p with
    m_SegmentsListHead :=
      if s.nNumberOfFreeBuffer - 1 = 0
      then rest ++ [{ s with FreeListHead := fl
                             nNumberOfFreeBuffer := s.nNumberOfFreeBuffer - 1 }]
      else { s with FreeListHead := fl
                    nNumberOfFreeBuffer := s.nNumberOfFreeBuffer - 1 } :: rest
    m_nFreeBuffers := p.m_nFreeBuffers - 1 }

/-- Effect of `Free` for buffer `i` of the active segment `s`. -/
def freed (p : CObjectPool) (s : SEGMENT) (i : Nat) : CObjectPool :=
  let pSegment : SEGMENT :=
    { s with FreeListHead := i :: s.FreeListHead
             nNumberOfFreeBuffer := s.nNumberOfFreeBuffer + 1 }
  let others := DLINK_Remove s.base p.m_SegmentsListHead
  let p2 := releaseCandidate p
  if s.nNumberOfFreeBuffer + 1 = p.m_nNumberOfBuffersInSegment ∧
      p.m_nNumberOfSegments > p.m_nNumberOfSegmentsLowMark then
    match p2.m_pSegmentCandidateForDeletion with
    | some _ =>
      { p2 with
        m_SegmentsListHead := others
        m_nFreeBuffers := p.m_nFreeBuffers + 1 - p.m_nNumberOfBuffersInSegment
        m_nNumberOfSegments := p.m_nNumberOfSegments - 1
        mapped := VirtualFree p2.mapped s.base }
    | none =>
      { p2 with
        m_SegmentsListHead := others
        m_pSegmentCandidateForDeletion := some pSegment
        m_nFreeBuffers := p.m_nFreeBuffers + 1 - p.m_nNumberOfBuffersInSegment
        m_nNumberOfSegments := p.m_nNumberOfSegments - 1 }
  else
    { p2 with
      m_SegmentsListHead := pSegment :: others
      m_nFreeBuffers := p.m_nFreeBuffers + 1 }

/-! ## Scenarios

Concrete pools, on a system with pages of 4096 bytes that maps segments at the
addresses 65536 and 131072. -/

/-- Scenario A: `create(payload = 16, buffers per segment = 4, start = 1, low = 1,
high = 2)`, deletion limit 1. -/
def poolA : CObjectPool :=
  { m_dwPageSize := 4096, m_nBufferSize := 16, m_nNumberOfBuffersInSegment := 4
    m_nNumberOfSegmentsLowMark := 1, m_nNumberOfSegmentsHighMark := 2
    m_nCandidateDeletionLimit := 1
    m_SegmentsListHead :=
      [{ base := 65536, FreeListHead := [3, 2, 1, 0], nNumberOfFreeBuffer := 4 }]
    m_pSegmentCandidateForDeletion := none
    m_nFreeBuffers := 4, m_nNumberOfSegments := 1, mapped := [65536] }

/-- Scenario A after five calls of `Allocate`: the fifth mapped a second
segment. -/
def poolA5 : CObjectPool :=
  { poolA with
    m_SegmentsListHead :=
      [{ base := 131072, FreeListHead := [2, 1, 0], nNumberOfFreeBuffer := 3 },
       { base := 65536, FreeListHead := [], nNumberOfFreeBuffer := 0 }]
    m_nFreeBuffers := 3, m_nNumberOfSegments := 2, mapped := [131072, 65536] }

/-- Buffers held by callers in `poolA5`. -/
def heldA5 : List Buffer := [(131072, 3), (65536, 0), (65536, 1), (65536, 2), (65536, 3)]

/-- Scenario A after eight calls of `Allocate`: no buffer is free. -/
def poolAfull : CObjectPool :=
  { poolA5 with
    m_SegmentsListHead :=
      [{ base := 65536, FreeListHead := [], nNumberOfFreeBuffer := 0 },
       { base := 131072, FreeListHead := [], nNumberOfFreeBuffer := 0 }]
    m_nFreeBuffers := 0 }

/-- Scenario A after three buffers of the first segment were freed. -/
def poolA8 : CObjectPool :=
  { poolA with
    m_SegmentsListHead :=
      [{ base := 65536, FreeListHead := [2, 1, 0], nNumberOfFreeBuffer := 3 },
       { base := 131072, FreeListHead := [2, 1, 0], nNumberOfFreeBuffer := 3 }]
    m_nFreeBuffers := 6, m_nNumberOfSegments := 2, mapped := [131072, 65536] }

/-- Buffers held by callers in `poolA8`. -/
def heldA8 : List Buffer := [(131072, 3), (65536, 3)]

/-- Scenario A after the fourth buffer of the first segment was freed: the first
segment is the candidate for deletion. -/
def poolA9 : CObjectPool :=
  { poolA with
    m_SegmentsListHead :=
      [{ base := 131072, FreeListHead := [2, 1, 0], nNumberOfFreeBuffer := 3 }]
    m_pSegmentCandidateForDeletion :=
      some { base := 65536, FreeListHead := [3, 2, 1, 0], nNumberOfFreeBuffer := 4 }
    m_nFreeBuffers := 3, m_nNumberOfSegments := 1, mapped := [131072, 65536] }

/-- Scenario B: `create(payload = 16, buffers per segment = 2, start = 1, low = 1,
high = 1)`, deletion limit 0. -/
def poolB : CObjectPool :=
  { m_dwPageSize := 4096, m_nBufferSize := 16, m_nNumberOfBuffersInSegment := 2
    m_nNumberOfSegmentsLowMark := 1, m_nNumberOfSegmentsHighMark := 1
    m_nCandidateDeletionLimit := 0
    m_SegmentsListHead :=
      [{ base := 65536, FreeListHead := [1, 0], nNumberOfFreeBuffer := 2 }]
    m_pSegmentCandidateForDeletion := none
    m_nFreeBuffers := 2, m_nNumberOfSegments := 1, mapped := [65536] }

/-- Scenario B after both buffers of the segment were allocated. -/
def poolB2 : CObjectPool :=
  { poolB with
    m_SegmentsListHead := [{ base := 65536, FreeListHead := [], nNumberOfFreeBuffer := 0 }]
    m_nFreeBuffers := 0 }

/-- Buffers held by callers in `poolB2`. -/
def heldB2 : List Buffer := [(65536, 0), (65536, 1)]

/-- Scenario B after one more call of `Allocate`, which the system served with a
segment at 131072. -/
def poolB3 : CObjectPool :=
  { poolB with
    m_SegmentsListHead :=
      [{ base := 131072, FreeListHead := [0], nNumberOfFreeBuffer := 1 },
       { base := 65536, FreeListHead := [], nNumberOfFreeBuffer := 0 }]
    m_nFreeBuffers := 1, m_nNumberOfSegments := 2, mapped := [131072, 65536] }

/-- Scenario B after a fourth call of `Allocate`: no buffer is free in two
segments. -/
def poolB4 : CObjectPool :=
  { poolB with
    m_SegmentsListHead :=
      [{ base := 65536, FreeListHead := [], nNumberOfFreeBuffer := 0 },
       { base := 131072, FreeListHead := [], nNumberOfFreeBuffer := 0 }]
    m_nFreeBuffers := 0, m_nNumberOfSegments := 2, mapped := [131072, 65536] }

/-- Buffers held by callers in `poolB4`. -/
def heldB4 : List Buffer := [(131072, 0), (131072, 1), (65536, 0), (65536, 1)]

/-- Hysteresis scenario: ten buffers per segment, deletion limit 3, two segments at
the start. -/
def poolH0 : CObjectPool :=
  { m_dwPageSize := 4096, m_nBufferSize := 16, m_nNumberOfBuffersInSegment := 10
    m_nNumberOfSegmentsLowMark := 1, m_nNumberOfSegmentsHighMark := 2
    m_nCandidateDeletionLimit := 3
    m_SegmentsListHead :=
      [{ base := 131072, FreeListHead := [9, 8, 7, 6, 5, 4, 3, 2, 1, 0]
         nNumberOfFreeBuffer := 10 },
       { base := 65536, FreeListHead := [9, 8, 7, 6, 5, 4, 3, 2, 1, 0]
         nNumberOfFreeBuffer := 10 }]
    m_pSegmentCandidateForDeletion := none
    m_nFreeBuffers := 20, m_nNumberOfSegments := 2, mapped := [131072, 65536] }

/-- Hysteresis scenario after twenty calls of `Allocate` and after the ten buffers
of the segment at 65536 were freed: that segment is the candidate for deletion
and no buffer is free. -/
def poolH : CObjectPool :=
  { poolH0 with
    m_SegmentsListHead := [{ base := 131072, FreeListHead := [], nNumberOfFreeBuffer := 0 }]
    m_pSegmentCandidateForDeletion :=
      some { base := 65536, FreeListHead := [9, 8, 7, 6, 5, 4, 3, 2, 1, 0]
             nNumberOfFreeBuffer := 10 }
    m_nFreeBuffers := 0, m_nNumberOfSegments := 1 }

/-- Buffers held by callers in `poolH`. -/
def heldH : List Buffer :=
  [(131072, 0), (131072, 1), (131072, 2), (131072, 3), (131072, 4), (131072, 5),
   (131072, 6), (131072, 7), (131072, 8), (131072, 9)]

/-- The calls that lead from `poolH0` to `poolH`. -/
def callsH : List Call :=
  List.replicate 20 (Call.allocate none) ++
    (List.range 10).map (fun i => Call.free (65536, i))

/-- Hysteresis scenario after four more buffers were freed, in the segment at
131072. -/
def poolH4 : CObjectPool :=
  { poolH with
    m_SegmentsListHead :=
      [{ base := 131072, FreeListHead := [3, 2, 1, 0], nNumberOfFreeBuffer := 4 }]
    m_nFreeBuffers := 4 }

/-- Buffers held by callers in `poolH4`. -/
def heldH4 : List Buffer :=
  [(131072, 4), (131072, 5), (131072, 6), (131072, 7), (131072, 8), (131072, 9)]

/-- Scenario A after two buffers of the first segment were freed. -/
def poolA7 : CObjectPool :=
  { poolA with
    m_SegmentsListHead :=
      [{ base := 65536, FreeListHead := [1, 0], nNumberOfFreeBuffer := 2 },
       { base := 131072, FreeListHead := [2, 1, 0], nNumberOfFreeBuffer := 3 }]
    m_nFreeBuffers := 5, m_nNumberOfSegments := 2, mapped := [131072, 65536] }

/-- Buffers held by callers in `poolA7`. -/
def heldA7 : List Buffer := [(131072, 3), (65536, 2), (65536, 3)]

/-- Buffers held by callers in `poolB3`. -/
def heldB3 : List Buffer := [(131072, 1), (65536, 0), (65536, 1)]

/-- Scenario B after the buffer of the second segment was freed in `poolB3`: that
segment is the candidate for deletion, one segment is active and no buffer is
free. -/
def poolB6 : CObjectPool :=
  { poolB with
    m_SegmentsListHead := [{ base := 65536, FreeListHead := [], nNumberOfFreeBuffer := 0 }]
    m_pSegmentCandidateForDeletion :=
      some { base := 131072, FreeListHead := [1, 0], nNumberOfFreeBuffer := 2 }
    m_nFreeBuffers := 0, m_nNumberOfSegments := 1, mapped := [131072, 65536] }

/-- Hysteresis scenario after a fifth buffer was freed in the segment at 131072:
the candidate for deletion was given back to the system. -/
def poolH5 : CObjectPool :=
  { poolH0 with
    m_SegmentsListHead :=
      [{ base := 131072, FreeListHead := [4, 3, 2, 1, 0], nNumberOfFreeBuffer := 5 }]
    m_nFreeBuffers := 5, m_nNumberOfSegments := 1, mapped := [131072] }

/-- Hysteresis scenario after that fifth buffer was allocated again. -/
def poolH6 : CObjectPool :=
  { poolH4 with
    m_pSegmentCandidateForDeletion := none
    mapped := [131072] }

/-- Scenario C: `create(payload = 16, buffers per segment = 2, start = 1, low = 1,
high = 2)`, deletion limit 0. -/
def poolC0 : CObjectPool :=
  { m_dwPageSize := 4096, m_nBufferSize := 16, m_nNumberOfBuffersInSegment := 2
    m_nNumberOfSegmentsLowMark := 1, m_nNumberOfSegmentsHighMark := 2
    m_nCandidateDeletionLimit := 0
    m_SegmentsListHead :=
      [{ base := 65536, FreeListHead := [1, 0], nNumberOfFreeBuffer := 2 }]
    m_pSegmentCandidateForDeletion := none
    m_nFreeBuffers := 2, m_nNumberOfSegments := 1, mapped := [65536] }

/-- The calls that lead from `poolC0` to `poolC`: six buffers are allocated in
three segments, the two buffers of the third segment are freed, which parks it,
and one buffer of the second segment is freed. -/
def callsC : List Call :=
  [Call.allocate none, Call.allocate none, Call.allocate (some 131072), Call.allocate none,
   Call.allocate (some 196608), Call.allocate none, Call.free (196608, 0),
   Call.free (196608, 1), Call.free (131072, 0)]

/-- Scenario C with the segment at 196608 as candidate for deletion, two active
segments and one free buffer. -/
def poolC : CObjectPool :=
  { poolC0 with
    m_SegmentsListHead :=
      [{ base := 131072, FreeListHead := [0], nNumberOfFreeBuffer := 1 },
       { base := 65536, FreeListHead := [], nNumberOfFreeBuffer := 0 }]
    m_pSegmentCandidateForDeletion :=
      some { base := 196608, FreeListHead := [1, 0], nNumberOfFreeBuffer := 2 }
    m_nFreeBuffers := 1, m_nNumberOfSegments := 2, mapped := [196608, 131072, 65536] }

/-- Buffers held by callers in `poolC`. -/
def heldC : List Buffer := [(131072, 1), (65536, 0), (65536, 1)]

/-- Scenario C after the last held buffer of the segment at 131072 was freed: the
former candidate was given back and that segment is the candidate. -/
def poolC1 : CObjectPool :=
  { poolC0 with
    m_SegmentsListHead := [{ base := 65536, FreeListHead := [], nNumberOfFreeBuffer := 0 }]
    m_pSegmentCandidateForDeletion :=
      some { base := 131072, FreeListHead := [1, 0], nNumberOfFreeBuffer := 2 }
    m_nFreeBuffers := 0, m_nNumberOfSegments := 1, mapped := [131072, 65536] }

/-! ## Machine arithmetic: lemmas -/

theorem and_mask (x k : Nat) (hx : x < 2 ^ 32) (hk : k ≤ 32) :
    x &&& (2 ^ 32 - 1 - (2 ^ k - 1)) = 2 ^ k * (x / 2 ^ k) := by
  apply Nat.eq_of_testBit_eq
  intro i
  have hm : 2 ^ 32 - 1 - (2 ^ k - 1) = 2 ^ 32 - ((2 ^ k - 1) + 1) := by omega
  have hlt : 2 ^ k - 1 < 2 ^ 32 := by
    have : 2 ^ k ≤ 2 ^ 32 := Nat.pow_le_pow_right (by norm_num) hk
    have : 0 < 2 ^ k := Nat.two_pow_pos k
    omega
  rw [Nat.testBit_and, hm, Nat.testBit_two_pow_sub_succ hlt, Nat.testBit_two_pow_sub_one,
    Nat.testBit_mul_pow_two, ← Nat.shiftRight_eq_div_pow, Nat.testBit_shiftRight]
  by_cases h1 : i < k
  · have : ¬ (i ≥ k) := by omega
    simp [h1, this]
  · have h2 : i ≥ k := by omega
    have h3 : k + (i - k) = i := by omega
    by_cases h4 : i < 32
    · simp [h1, h2, h3, h4]
    · have : x.testBit i = false := by
        apply Nat.testBit_lt_two_pow
        exact lt_of_lt_of_le hx (Nat.pow_le_pow_right (by norm_num) (by omega))
      simp [h1, h2, h3, h4, this]

theorem uadd_eq {a b : Nat} (h : a + b < WORD) : uadd a b = a + b := by
  unfold uadd; exact Nat.mod_eq_of_lt h

theorem usub_eq {a b : Nat} (hb : b ≤ a) (ha : a < WORD) : usub a b = a - b := by
  unfold usub
  have hb2 : b % WORD = b := Nat.mod_eq_of_lt (by omega)
  rw [hb2]
  have : a + (WORD - b) = (a - b) + WORD := by omega
  rw [this, Nat.add_mod_right]
  exact Nat.mod_eq_of_lt (by omega)

/-- Subtracting `b` and then adding one: the intermediate value may wrap, the
result does not when `b ≤ a + 1`. -/
theorem usub_uadd_one {a b : Nat} (hb : b ≤ a + 1) (ha : a < WORD) (hb0 : 0 < b)
    (hbW : b < WORD) :
    uadd (usub a b) 1 = a + 1 - b := by
  unfold uadd usub
  have hb2 : b % WORD = b := Nat.mod_eq_of_lt (by omega)
  rw [hb2, Nat.mod_add_mod]
  have : a + (WORD - b) + 1 = (a + 1 - b) + WORD := by omega
  rw [this, Nat.add_mod_right]
  exact Nat.mod_eq_of_lt (by omega)

theorem MemAlign_bounds {v al k : Nat} (hk : k < 32) (hal : al = 2 ^ k) (hv : v + al ≤ WORD) :
    v ≤ MemAlign v al ∧ MemAlign v al < v + al := by
  have hpos : 0 < 2 ^ k := Nat.two_pow_pos k
  have hW : WORD = 2 ^ 32 := rfl
  have hle : 2 ^ k < 2 ^ 32 := Nat.pow_lt_pow_right (by norm_num) hk
  subst hal
  have h1 : usub (uadd v (2 ^ k)) 1 = v + 2 ^ k - 1 := by
    unfold uadd usub
    have : (1 : Nat) % WORD = 1 := by rw [hW]; norm_num
    rw [this, Nat.mod_add_mod]
    have : v + 2 ^ k + (WORD - 1) = (v + 2 ^ k - 1) + WORD := by omega
    rw [this, Nat.add_mod_right]
    exact Nat.mod_eq_of_lt (by omega)
  have h2 : usub (2 ^ k) 1 = 2 ^ k - 1 := usub_eq (by omega) (by omega)
  have h3 : unot (2 ^ k - 1) = 2 ^ 32 - 1 - (2 ^ k - 1) := by
    unfold unot
    rw [Nat.mod_eq_of_lt (by omega), hW]
  unfold MemAlign
  rw [h1, h2, h3, and_mask _ k (by omega) (by omega)]
  have hd := Nat.div_add_mod (v + 2 ^ k - 1) (2 ^ k)
  have hm := Nat.mod_lt (v + 2 ^ k - 1) hpos
  constructor <;> omega

/-! ## Regions in the address space -/

theorem regions_cover (N size : Nat) :
    ∀ live : List Nat, live.Pairwise (fun a b => a + size ≤ b ∨ b + size ≤ a) →
      (∀ a ∈ live, a + size ≤ N) →
      ∃ S : Finset Nat, S ⊆ Finset.range N ∧ S.card = live.length * size ∧
        ∀ x ∈ S, ∃ a ∈ live, a ≤ x ∧ x < a + size := by
  intro live
  induction live with
  | nil => intro _ _; exact ⟨∅, by simp, by simp, by simp⟩
  | cons a l ih =>
    intro hp hb
    rw [List.pairwise_cons] at hp
    obtain ⟨S, hS, hc, hx⟩ := ih hp.2 (fun b hb2 => hb b (List.mem_cons_of_mem _ hb2))
    have hd : Disjoint (Finset.Ico a (a + size)) S := by
      rw [Finset.disjoint_left]
      intro x hxa hxS
      obtain ⟨b, hbl, h1, h2⟩ := hx x hxS
      have := hp.1 b hbl
      rw [Finset.mem_Ico] at hxa
      omega
    refine ⟨Finset.Ico a (a + size) ∪ S, ?_, ?_, ?_⟩
    · intro x hx2
      rw [Finset.mem_union] at hx2
      rcases hx2 with h | h
      · rw [Finset.mem_Ico] at h
        have := hb a (List.mem_cons_self _ _)
        rw [Finset.mem_range]; omega
      · exact hS h
    · rw [Finset.card_union_of_disjoint hd, hc, Nat.card_Ico, List.length_cons]
      ring_nf
      omega
    · intro x hx2
      rw [Finset.mem_union] at hx2
      rcases hx2 with h | h
      · rw [Finset.mem_Ico] at h
        exact ⟨a, List.mem_cons_self _ _, h.1, h.2⟩
      · obtain ⟨b, hbl, h1, h2⟩ := hx x h
        exact ⟨b, List.mem_cons_of_mem _ hbl, h1, h2⟩

/-- Pairwise disjoint regions of one size inside `[0, N)`: their total size is at
most `N`. -/
theorem regions_quota (N size : Nat) (live : List Nat)
    (hp : live.Pairwise (fun a b => a + size ≤ b ∨ b + size ≤ a))
    (hb : ∀ a ∈ live, a + size ≤ N) : live.length * size ≤ N := by
  obtain ⟨S, hS, hc, _⟩ := regions_cover N size live hp hb
  have := Finset.card_le_card hS
  rw [Finset.card_range] at this
  omega

theorem VirtualAlloc_some {live : List Nat} {size : Nat} {os : Option Nat} {a : Nat}
    (h : VirtualAlloc live size os = some a) :
    os = some a ∧ 0 < a ∧ 0 < size ∧ a + size ≤ WORD ∧
      ∀ b ∈ live, a + size ≤ b ∨ b + size ≤ a := by
  unfold VirtualAlloc at h
  cases os with
  | none => simp at h
  | some x =>
    simp only at h
    split at h
    · rename_i hc
      have hx : x = a := by simpa using h
      subst hx
      exact ⟨rfl, hc⟩
    · simp at h

/-- Size of a segment: more than its number of buffers, and inside the address
space. -/
theorem segment_size_gt (p : CObjectPool) (hB : p.m_nNumberOfBuffersInSegment ≠ 0)
    (hpage : ∃ k, k < 32 ∧ p.m_dwPageSize = 2 ^ k)
    (hfits : sizeofSEGMENT + p.m_nNumberOfBuffersInSegment *
      (sizeofBUFFER_HEADER + p.m_nBufferSize) + p.m_dwPageSize ≤ WORD) :
    p.m_nNumberOfBuffersInSegment < segment_size p := by
  obtain ⟨k, hk, hpk⟩ := hpage
  have h4 : sizeofBUFFER_HEADER = 4 := rfl
  have h16 : sizeofSEGMENT = 16 := rfl
  rw [h4, h16] at hfits
  have hmul : p.m_nNumberOfBuffersInSegment * (4 + p.m_nBufferSize) =
      p.m_nNumberOfBuffersInSegment * 4 +
        p.m_nNumberOfBuffersInSegment * p.m_nBufferSize := Nat.mul_add _ _ _
  have hone : 4 + p.m_nBufferSize ≤
      p.m_nNumberOfBuffersInSegment * (4 + p.m_nBufferSize) :=
    Nat.le_mul_of_pos_left _ (Nat.pos_of_ne_zero hB)
  have hpos : 0 < p.m_dwPageSize := by rw [hpk]; exact Nat.two_pow_pos k
  have e1 : uadd sizeofBUFFER_HEADER p.m_nBufferSize = 4 + p.m_nBufferSize := by
    rw [h4]; exact uadd_eq (by omega)
  have e2 : umul p.m_nNumberOfBuffersInSegment (4 + p.m_nBufferSize) =
      p.m_nNumberOfBuffersInSegment * (4 + p.m_nBufferSize) := by
    unfold umul; exact Nat.mod_eq_of_lt (by omega)
  have e3 : uadd sizeofSEGMENT (p.m_nNumberOfBuffersInSegment * (4 + p.m_nBufferSize)) =
      16 + p.m_nNumberOfBuffersInSegment * (4 + p.m_nBufferSize) := by
    rw [h16]; exact uadd_eq (by omega)
  unfold segment_size
  rw [e1, e2, e3]
  have := (@MemAlign_bounds (16 + p.m_nNumberOfBuffersInSegment *
    (4 + p.m_nBufferSize)) _ k hk hpk (by omega)).1
  omega

/-- The pool holds so few regions that its counters do not wrap. -/
theorem capacity (p : CObjectPool) (hB : p.m_nNumberOfBuffersInSegment ≠ 0)
    (hpage : ∃ k, k < 32 ∧ p.m_dwPageSize = 2 ^ k)
    (hfits : sizeofSEGMENT + p.m_nNumberOfBuffersInSegment *
      (sizeofBUFFER_HEADER + p.m_nBufferSize) + p.m_dwPageSize ≤ WORD)
    (hregion : ∀ a ∈ p.mapped, a + segment_size p ≤ WORD)
    (hdisj : p.mapped.Pairwise
      (fun a b => a + segment_size p ≤ b ∨ b + segment_size p ≤ a)) :
    p.mapped.length * p.m_nNumberOfBuffersInSegment + p.mapped.length ≤ WORD := by
  have h1 := regions_quota WORD (segment_size p) p.mapped hdisj hregion
  have h2 := segment_size_gt p hB hpage hfits
  have h3 : p.mapped.length * (p.m_nNumberOfBuffersInSegment + 1) ≤
      p.mapped.length * segment_size p := Nat.mul_le_mul_left _ h2
  rw [Nat.mul_add, Nat.mul_one] at h3
  omega

/-! ## Lists of segments -/

theorem mem_DLINK_Remove {a : Nat} {l : List SEGMENT} {s : SEGMENT} :
    s ∈ DLINK_Remove a l ↔ s ∈ l ∧ s.base ≠ a := by
  unfold DLINK_Remove
  simp [List.mem_filter]

theorem DLINK_Remove_sublist (a : Nat) (l : List SEGMENT) :
    (DLINK_Remove a l).Sublist l := by
  unfold DLINK_Remove
  exact List.filter_sublist l

theorem DLINK_Remove_of_not_mem {a : Nat} {l : List SEGMENT}
    (h : a ∉ l.map SEGMENT.base) : DLINK_Remove a l = l := by
  unfold DLINK_Remove
  rw [List.filter_eq_self]
  intro s hs
  have : s.base ≠ a := fun e => h (e ▸ List.mem_map_of_mem SEGMENT.base hs)
  simpa using this

theorem DLINK_Remove_cons_self (s : SEGMENT) (l : List SEGMENT) :
    DLINK_Remove s.base (s :: l) = DLINK_Remove s.base l := by
  unfold DLINK_Remove
  simp

theorem DLINK_Remove_perm {l : List SEGMENT} (hn : (l.map SEGMENT.base).Nodup)
    {s : SEGMENT} (hs : s ∈ l) : l.Perm (s :: DLINK_Remove s.base l) := by
  induction l with
  | nil => cases hs
  | cons x xs ih =>
    rw [List.map_cons, List.nodup_cons] at hn
    rcases List.mem_cons.1 hs with e | hmem
    · subst e
      rw [DLINK_Remove_cons_self, DLINK_Remove_of_not_mem hn.1]
    · have hne : x.base ≠ s.base := fun e =>
        hn.1 (e ▸ List.mem_map_of_mem SEGMENT.base hmem)
      have hx : DLINK_Remove s.base (x :: xs) = x :: DLINK_Remove s.base xs := by
        unfold DLINK_Remove
        simp [hne]
      rw [hx]
      exact ((ih hn.2 hmem).cons x).trans (List.Perm.swap s x _)

theorem find_base {l : List SEGMENT} {a : Nat} {s : SEGMENT}
    (h : l.find? (fun s => decide (s.base = a)) = some s) : s ∈ l ∧ s.base = a := by
  refine ⟨List.mem_of_find?_eq_some h, ?_⟩
  have := List.find?_some h
  simpa using this

theorem find_base_exists {l : List SEGMENT} {a : Nat} (h : a ∈ l.map SEGMENT.base) :
    ∃ s, l.find? (fun s => decide (s.base = a)) = some s := by
  rw [List.mem_map] at h
  obtain ⟨t, ht, hta⟩ := h
  cases hf : l.find? (fun s => decide (s.base = a)) with
  | some s => exact ⟨s, rfl⟩
  | none =>
    rw [List.find?_eq_none] at hf
    have := hf t ht
    simp [hta] at this

theorem initFreeList_eq (n : Nat) : initFreeList n = (List.range n).reverse := by
  have key : ∀ (xs acc : List Nat), xs.foldl SLINK_Push acc = xs.reverse ++ acc := by
    intro xs
    induction xs with
    | nil => intro acc; rfl
    | cons x xs ih =>
      intro acc
      rw [List.foldl_cons, ih]
      simp [SLINK_Push]
  unfold initFreeList
  rw [key]; simp

/-- A list of distinct numbers below `n` has at most `n` members. -/
theorem nodup_length_le {l : List Nat} {n : Nat} (hn : l.Nodup) (hb : ∀ i ∈ l, i < n) :
    l.length ≤ n := by
  have h1 : l.toFinset ⊆ Finset.range n := by
    intro x hx
    rw [List.mem_toFinset] at hx
    exact Finset.mem_range.2 (hb x hx)
  have h2 := Finset.card_le_card h1
  rw [List.toFinset_card_of_nodup hn, Finset.card_range] at h2
  exact h2

/-- A list of `n` distinct numbers below `n` holds every number below `n`. -/
theorem nodup_full {l : List Nat} {n : Nat} (hn : l.Nodup) (hb : ∀ i ∈ l, i < n)
    (hlen : l.length = n) {i : Nat} (hi : i < n) : i ∈ l := by
  have h1 : l.toFinset ⊆ Finset.range n := by
    intro x hx
    rw [List.mem_toFinset] at hx
    exact Finset.mem_range.2 (hb x hx)
  have h2 : (Finset.range n).card ≤ l.toFinset.card := by
    rw [List.toFinset_card_of_nodup hn, Finset.card_range, hlen]
  have h3 := Finset.eq_of_subset_of_card_le h1 h2
  have : i ∈ l.toFinset := by rw [h3]; exact Finset.mem_range.2 hi
  exact List.mem_toFinset.1 this

/-! ## The invariant: consequences -/

theorem heldBases_length (p : CObjectPool) :
    (heldBases p).length =
      p.m_SegmentsListHead.length + p.m_pSegmentCandidateForDeletion.toList.length := by
  unfold heldBases
  simp

theorem Inv.cap {p : CObjectPool} {out : List Buffer} (h : Inv p out) :
    (p.m_SegmentsListHead.length + p.m_pSegmentCandidateForDeletion.toList.length) *
      p.m_nNumberOfBuffersInSegment +
      (p.m_SegmentsListHead.length + p.m_pSegmentCandidateForDeletion.toList.length) ≤ WORD := by
  have h1 := capacity p h.buffers h.page h.fits h.region h.disjoint
  rw [h.held.length_eq, heldBases_length] at h1
  exact h1

/-- The counters of a pool that satisfies the invariant are far from wrapping. -/
theorem Inv.small {p : CObjectPool} {out : List Buffer} (h : Inv p out) :
    p.m_nFreeBuffers ≤ p.m_nNumberOfSegments * p.m_nNumberOfBuffersInSegment ∧
    p.m_nNumberOfSegments * p.m_nNumberOfBuffersInSegment + p.m_nNumberOfSegments ≤ WORD ∧
    (p.m_pSegmentCandidateForDeletion ≠ none →
      p.m_nNumberOfSegments * p.m_nNumberOfBuffersInSegment +
        p.m_nNumberOfBuffersInSegment + p.m_nNumberOfSegments + 1 ≤ WORD) := by
  have h1 := h.cap
  have h2 := h.conserve
  rw [← h.segments] at h1
  refine ⟨by omega, ?_, ?_⟩
  · rw [Nat.add_mul] at h1
    omega
  · intro hc
    cases hcand : p.m_pSegmentCandidateForDeletion with
    | none => exact absurd hcand hc
    | some c =>
      rw [hcand] at h1
      simp only [Option.toList, List.length_cons, List.length_nil] at h1
      rw [Nat.add_mul] at h1
      omega

theorem Inv.free_lt {p : CObjectPool} {out : List Buffer} (h : Inv p out) :
    p.m_nFreeBuffers < WORD ∧ p.m_nNumberOfSegments < WORD ∧
      p.m_nNumberOfBuffersInSegment < WORD := by
  have hs := h.small
  have hB := h.buffers
  have h3 := segment_size_gt p h.buffers h.page h.fits
  have h4 : p.m_nNumberOfBuffersInSegment < WORD := by
    obtain ⟨k, hk, hpk⟩ := h.page
    have hf := h.fits
    have h4 : sizeofBUFFER_HEADER = 4 := rfl
    rw [h4, Nat.mul_add] at hf
    omega
  refine ⟨?_, ?_, h4⟩
  · rcases Nat.eq_zero_or_pos p.m_nNumberOfSegments with h0 | h0
    · have := hs.1; rw [h0] at this; simp at this; rw [this]; exact Nat.two_pow_pos 32
    · omega
  · rcases Nat.eq_zero_or_pos p.m_nNumberOfSegments with h0 | h0
    · rw [h0]; exact Nat.two_pow_pos 32
    · have : 0 < p.m_nNumberOfSegments * p.m_nNumberOfBuffersInSegment :=
        Nat.mul_pos h0 (Nat.pos_of_ne_zero hB)
      omega

/-- No caller holds a buffer of a segment whose buffers are all free. -/
theorem SegOk.idle {n : Nat} {out : List Buffer} {s : SEGMENT} (h : SegOk n out s)
    (hfull : s.nNumberOfFreeBuffer = n) {b : Buffer} (hb : b ∈ out) (hlt : b.2 < n) :
    b.1 ≠ s.base := by
  intro e
  have hmem : b.2 ∈ s.FreeListHead :=
    nodup_full h.nodup h.bound (by rw [← h.count, hfull]) hlt
  have := h.apart b.2 hmem
  rw [← e] at this
  exact this hb

theorem SegOk.mono {n : Nat} {out out2 : List Buffer} {s : SEGMENT} (h : SegOk n out s)
    (hsub : ∀ i ∈ s.FreeListHead, (s.base, i) ∈ out2 → (s.base, i) ∈ out) : SegOk n out2 s :=
  ⟨h.count, h.nodup, h.bound, fun i hi hm => h.apart i hi (hsub i hi hm)⟩

theorem Inv.base_ne {p : CObjectPool} {out : List Buffer} (h : Inv p out)
    {s c : SEGMENT} (hs : s ∈ p.m_SegmentsListHead)
    (hc : p.m_pSegmentCandidateForDeletion = some c) : s.base ≠ c.base := by
  have hn := h.bases
  unfold heldBases at hn
  rw [hc] at hn
  intro e
  have h1 : s.base ∈ p.m_SegmentsListHead.map SEGMENT.base := List.mem_map_of_mem _ hs
  have := (List.nodup_append.1 hn).2.2
  exact this h1 (by simp [e])

theorem Inv.activeNodup {p : CObjectPool} {out : List Buffer} (h : Inv p out) :
    (p.m_SegmentsListHead.map SEGMENT.base).Nodup :=
  (List.nodup_append.1 h.bases).1

theorem Inv.mappedNodup {p : CObjectPool} {out : List Buffer} (h : Inv p out) :
    p.mapped.Nodup := h.held.nodup_iff.2 h.bases

/-! ## The invariant: preservation -/

theorem heldBases_mem_of_active {p : CObjectPool} {a : Nat}
    (h : a ∈ p.m_SegmentsListHead.map SEGMENT.base) : a ∈ heldBases p := by
  unfold heldBases
  exact List.mem_append_left _ h

/-- A pool without segments satisfies the invariant. -/
theorem Inv_initial (dwPageSize nBufferSize n low high limit : Nat)
    (hn : n ≠ 0) (hpage : ∃ k, k < 32 ∧ dwPageSize = 2 ^ k)
    (hfits : sizeofSEGMENT + n * (sizeofBUFFER_HEADER + max nBufferSize sizeofSLINK)
      + dwPageSize ≤ WORD) :
    Inv { m_dwPageSize := dwPageSize
          m_nBufferSize := max nBufferSize sizeofSLINK
          m_nNumberOfBuffersInSegment := n
          m_nNumberOfSegmentsLowMark := low
          m_nNumberOfSegmentsHighMark := high
          m_nCandidateDeletionLimit := limit
          m_SegmentsListHead := []
          m_pSegmentCandidateForDeletion := none
          m_nFreeBuffers := 0
          m_nNumberOfSegments := 0
          mapped := [] } [] where
  buffers := hn
  page := hpage
  fits := hfits
  region := by intro a ha; cases ha
  disjoint := List.Pairwise.nil
  held := by simp [heldBases]
  bases := by simp [heldBases]
  segs := by intro s hs; cases hs
  cand := by intro c hc; cases hc
  outNodup := List.nodup_nil
  outValid := by intro b hb; cases hb
  sum := by simp
  segments := by simp
  order := List.Pairwise.nil
  conserve := by simp

/-- A freshly mapped segment linked at the front keeps the invariant. -/
theorem Inv_grow {p : CObjectPool} {out : List Buffer} {os : Option Nat} {a : Nat}
    (h : Inv p out) (ha : VirtualAlloc p.mapped (segment_size p) os = some a) :
    Inv { p with
          m_SegmentsListHead := DLINK_InsertNext
            { base := a
              FreeListHead := initFreeList p.m_nNumberOfBuffersInSegment
              nNumberOfFreeBuffer := p.m_nNumberOfBuffersInSegment } p.m_SegmentsListHead
          m_nFreeBuffers := p.m_nFreeBuffers + p.m_nNumberOfBuffersInSegment
          m_nNumberOfSegments := p.m_nNumberOfSegments + 1
          mapped := a :: p.mapped } out := by
  obtain ⟨-, -, hsize, hin, hdis⟩ := VirtualAlloc_some ha
  have hfresh : a ∉ heldBases p := by
    intro hmem
    have := hdis a (h.held.mem_iff.2 hmem)
    omega
  exact
    { buffers := h.buffers
      page := h.page
      fits := h.fits
      region := by
        intro x hx
        show x + segment_size p ≤ WORD
        rcases List.mem_cons.1 hx with e | hx2
        · rw [e]; exact hin
        · exact h.region x hx2
      disjoint := List.pairwise_cons.2 ⟨hdis, h.disjoint⟩
      held := by
        show (a :: p.mapped).Perm (a :: heldBases p)
        exact h.held.cons a
      bases := by
        show (a :: heldBases p).Nodup
        exact List.nodup_cons.2 ⟨hfresh, h.bases⟩
      segs := by
        intro s hs
        rcases List.mem_cons.1 hs with e | hs2
        · subst e
          refine ⟨?_, ?_, ?_, ?_⟩
          · simp [initFreeList_eq]
          · simp only [initFreeList_eq]
            exact List.nodup_reverse.2 (List.nodup_range _)
          · intro i hi
            simpa [initFreeList_eq] using hi
          · intro i _ hmem
            exact hfresh (heldBases_mem_of_active (h.outValid _ hmem).2)
        · exact h.segs s hs2
      cand := h.cand
      outNodup := h.outNodup
      outValid := fun b hb =>
        ⟨(h.outValid b hb).1, List.mem_cons_of_mem _ (h.outValid b hb).2⟩
      sum := by
        show p.m_nFreeBuffers + p.m_nNumberOfBuffersInSegment = _
        simp only [DLINK_InsertNext, List.map_cons, List.sum_cons]
        rw [h.sum]; omega
      segments := by
        show p.m_nNumberOfSegments + 1 = _
        simp only [DLINK_InsertNext, List.length_cons]
        rw [h.segments]
      order := List.pairwise_cons.2 ⟨fun _ _ h0 => absurd h0 h.buffers, h.order⟩
      conserve := by
        show p.m_nFreeBuffers + p.m_nNumberOfBuffersInSegment + out.length =
          (p.m_nNumberOfSegments + 1) * p.m_nNumberOfBuffersInSegment
        rw [Nat.add_mul, Nat.one_mul]
        have := h.conserve
        omega }

/-- The candidate for deletion linked back at the front keeps the invariant. -/
theorem Inv_reactivate {p : CObjectPool} {out : List Buffer} {c : SEGMENT}
    (h : Inv p out) (hc : p.m_pSegmentCandidateForDeletion = some c) :
    Inv { p with
          m_SegmentsListHead := DLINK_InsertNext c p.m_SegmentsListHead
          m_pSegmentCandidateForDeletion := none
          m_nFreeBuffers := p.m_nFreeBuffers + p.m_nNumberOfBuffersInSegment
          m_nNumberOfSegments := p.m_nNumberOfSegments + 1 } out := by
  have hperm : (heldBases p).Perm (c.base :: p.m_SegmentsListHead.map SEGMENT.base) := by
    unfold heldBases
    rw [hc]
    simp
  have hheld : heldBases { p with
      m_SegmentsListHead := DLINK_InsertNext c p.m_SegmentsListHead
      m_pSegmentCandidateForDeletion := none
      m_nFreeBuffers := p.m_nFreeBuffers + p.m_nNumberOfBuffersInSegment
      m_nNumberOfSegments := p.m_nNumberOfSegments + 1 } =
      c.base :: p.m_SegmentsListHead.map SEGMENT.base := by
    simp [heldBases, DLINK_InsertNext]
  exact
    { buffers := h.buffers
      page := h.page
      fits := h.fits
      region := h.region
      disjoint := h.disjoint
      held := by rw [hheld]; exact h.held.trans hperm
      bases := by rw [hheld]; exact hperm.nodup_iff.1 h.bases
      segs := by
        intro s hs
        rcases List.mem_cons.1 hs with e | hs2
        · subst e; exact (h.cand s hc).1
        · exact h.segs s hs2
      cand := by intro d hd; cases hd
      outNodup := h.outNodup
      outValid := fun b hb =>
        ⟨(h.outValid b hb).1, List.mem_cons_of_mem _ (h.outValid b hb).2⟩
      sum := by
        show p.m_nFreeBuffers + p.m_nNumberOfBuffersInSegment = _
        simp only [DLINK_InsertNext, List.map_cons, List.sum_cons]
        rw [h.sum, (h.cand c hc).2]; omega
      segments := by
        show p.m_nNumberOfSegments + 1 = _
        simp only [DLINK_InsertNext, List.length_cons]
        rw [h.segments]
      order := List.pairwise_cons.2
        ⟨fun _ _ h0 => absurd ((h.cand c hc).2 ▸ h0) h.buffers, h.order⟩
      conserve := by
        show p.m_nFreeBuffers + p.m_nNumberOfBuffersInSegment + out.length =
          (p.m_nNumberOfSegments + 1) * p.m_nNumberOfBuffersInSegment
        rw [Nat.add_mul, Nat.one_mul]
        have := h.conserve
        omega }

/-- A buffer taken from the first segment keeps the invariant; the segment stays
first, or goes to the tail when it has no free buffer left. -/
theorem Inv_take {p : CObjectPool} {out : List Buffer} {s : SEGMENT} {rest : List SEGMENT}
    {i : Nat} {fl : List Nat} {segs : List SEGMENT} (h : Inv p out)
    (hl : p.m_SegmentsListHead = s :: rest) (hf : s.FreeListHead = i :: fl)
    (hsegs :
      (s.nNumberOfFreeBuffer - 1 ≠ 0 ∧
        segs = { s with FreeListHead := fl
                        nNumberOfFreeBuffer := s.nNumberOfFreeBuffer - 1 } :: rest) ∨
      (s.nNumberOfFreeBuffer - 1 = 0 ∧
        segs = rest ++ [{ s with FreeListHead := fl
                                 nNumberOfFreeBuffer := s.nNumberOfFreeBuffer - 1 }])) :
    Inv { p with m_SegmentsListHead := segs
                 m_nFreeBuffers := p.m_nFreeBuffers - 1 } ((s.base, i) :: out) := by
  have hs : s ∈ p.m_SegmentsListHead := by rw [hl]; exact List.mem_cons_self _ _
  have hS := h.segs s hs
  have hnd : i ∉ fl ∧ fl.Nodup := by
    have := hS.nodup; rw [hf] at this; exact List.nodup_cons.1 this
  have hcount : s.nNumberOfFreeBuffer = fl.length + 1 := by
    rw [hS.count, hf]; rfl
  have hil : i < p.m_nNumberOfBuffersInSegment :=
    hS.bound i (by rw [hf]; exact List.mem_cons_self _ _)
  have hiout : (s.base, i) ∉ out := hS.apart i (by rw [hf]; exact List.mem_cons_self _ _)
  have hact := h.activeNodup
  rw [hl, List.map_cons, List.nodup_cons] at hact
  have hperm : segs.Perm ({ s with FreeListHead := fl
                                   nNumberOfFreeBuffer := s.nNumberOfFreeBuffer - 1 } :: rest) := by
    rcases hsegs with ⟨_, e⟩ | ⟨_, e⟩
    · rw [e]
    · rw [e]; exact List.perm_append_singleton _ _
  have hpermB : (segs.map SEGMENT.base).Perm (p.m_SegmentsListHead.map SEGMENT.base) := by
    rw [hl]
    exact hperm.map SEGMENT.base
  have hheld : (heldBases p).Perm (heldBases { p with
      m_SegmentsListHead := segs
      m_nFreeBuffers := p.m_nFreeBuffers - 1 }) := by
    unfold heldBases
    exact (hpermB.symm).append_right _
  have hsum := h.sum
  rw [hl, List.map_cons, List.sum_cons] at hsum
  have hseg := h.segments
  rw [hl, List.length_cons] at hseg
  exact
    { buffers := h.buffers
      page := h.page
      fits := h.fits
      region := h.region
      disjoint := h.disjoint
      held := h.held.trans hheld
      bases := hheld.nodup_iff.1 h.bases
      segs := by
        intro t ht
        rcases List.mem_cons.1 (hperm.mem_iff.1 ht) with e | ht2
        · subst e
          refine ⟨?_, hnd.2, ?_, ?_⟩
          · show s.nNumberOfFreeBuffer - 1 = fl.length
            omega
          · intro j hj
            exact hS.bound j (by rw [hf]; exact List.mem_cons_of_mem _ hj)
          · intro j hj hmem
            rcases List.mem_cons.1 hmem with e | hm
            · have : j = i := by simpa using e
              exact hnd.1 (this ▸ hj)
            · exact hS.apart j (by rw [hf]; exact List.mem_cons_of_mem _ hj) hm
        · have htl : t ∈ p.m_SegmentsListHead := by rw [hl]; exact List.mem_cons_of_mem _ ht2
          refine (h.segs t htl).mono ?_
          intro j _ hmem
          rcases List.mem_cons.1 hmem with e | hm
          · have : t.base = s.base := by simpa using congrArg Prod.fst e
            exact absurd (this ▸ List.mem_map_of_mem SEGMENT.base ht2) hact.1
          · exact hm
      cand := by
        intro c hc
        refine ⟨((h.cand c hc).1).mono ?_, (h.cand c hc).2⟩
        intro j _ hmem
        rcases List.mem_cons.1 hmem with e | hm
        · have : c.base = s.base := by simpa using congrArg Prod.fst e
          exact absurd this.symm (h.base_ne hs hc)
        · exact hm
      outNodup := List.nodup_cons.2 ⟨hiout, h.outNodup⟩
      outValid := by
        intro b hb
        rcases List.mem_cons.1 hb with e | hb2
        · subst e
          refine ⟨hil, hpermB.mem_iff.2 ?_⟩
          exact List.mem_map_of_mem SEGMENT.base hs
        · exact ⟨(h.outValid b hb2).1, hpermB.mem_iff.2 (h.outValid b hb2).2⟩
      sum := by
        show p.m_nFreeBuffers - 1 = (segs.map SEGMENT.nNumberOfFreeBuffer).sum
        rw [(hperm.map SEGMENT.nNumberOfFreeBuffer).sum_eq, List.map_cons, List.sum_cons]
        show p.m_nFreeBuffers - 1 = s.nNumberOfFreeBuffer - 1 + _
        omega
      segments := by
        show p.m_nNumberOfSegments = segs.length
        rw [hperm.length_eq, List.length_cons]
        exact hseg
      order := by
        have hord := h.order
        rw [hl, List.pairwise_cons] at hord
        show segs.Pairwise _
        rcases hsegs with ⟨hne, e⟩ | ⟨h0, e⟩
        · rw [e]
          exact List.pairwise_cons.2 ⟨fun _ _ h0 => absurd h0 hne, hord.2⟩
        · rw [e, List.pairwise_append]
          refine ⟨hord.2, List.pairwise_singleton _ _, ?_⟩
          intro a _ b hb _
          rw [List.mem_singleton] at hb
          rw [hb]; exact h0
      conserve := by
        show p.m_nFreeBuffers - 1 + ((s.base, i) :: out).length =
          p.m_nNumberOfSegments * p.m_nNumberOfBuffersInSegment
        have := h.conserve
        rw [List.length_cons]
        omega }

/-- A buffer given back to its segment, which comes to the front, keeps the
invariant. -/
theorem Inv_push {p : CObjectPool} {out : List Buffer} {s : SEGMENT} {i : Nat}
    (h : Inv p out) (hs : s ∈ p.m_SegmentsListHead) (hb : (s.base, i) ∈ out) :
    Inv { p with
          m_SegmentsListHead :=
            { s with FreeListHead := i :: s.FreeListHead
                     nNumberOfFreeBuffer := s.nNumberOfFreeBuffer + 1 } ::
              DLINK_Remove s.base p.m_SegmentsListHead
          m_nFreeBuffers := p.m_nFreeBuffers + 1 } (out.erase (s.base, i)) := by
  have hS := h.segs s hs
  have hperm := DLINK_Remove_perm h.activeNodup hs
  have hpermB : (p.m_SegmentsListHead.map SEGMENT.base).Perm
      (s.base :: (DLINK_Remove s.base p.m_SegmentsListHead).map SEGMENT.base) :=
    hperm.map SEGMENT.base
  have hheld : (heldBases p).Perm (heldBases { p with
      m_SegmentsListHead :=
        { s with FreeListHead := i :: s.FreeListHead
                 nNumberOfFreeBuffer := s.nNumberOfFreeBuffer + 1 } ::
          DLINK_Remove s.base p.m_SegmentsListHead
      m_nFreeBuffers := p.m_nFreeBuffers + 1 }) := by
    unfold heldBases
    exact hpermB.append_right _
  have hifl : i ∉ s.FreeListHead := fun hi => hS.apart i hi hb
  have hsub : ∀ x, x ∈ out.erase (s.base, i) → x ∈ out := fun x hx => List.mem_of_mem_erase hx
  have hlen : 0 < out.length := List.length_pos_of_mem hb
  exact
    { buffers := h.buffers
      page := h.page
      fits := h.fits
      region := h.region
      disjoint := h.disjoint
      held := h.held.trans hheld
      bases := hheld.nodup_iff.1 h.bases
      segs := by
        intro t ht
        rcases List.mem_cons.1 ht with e | ht2
        · subst e
          refine ⟨?_, List.nodup_cons.2 ⟨hifl, hS.nodup⟩, ?_, ?_⟩
          · show s.nNumberOfFreeBuffer + 1 = (i :: s.FreeListHead).length
            rw [List.length_cons, hS.count]
          · intro j hj
            rcases List.mem_cons.1 hj with e | hj2
            · rw [e]; exact (h.outValid _ hb).1
            · exact hS.bound j hj2
          · intro j hj hmem
            rcases List.mem_cons.1 hj with e | hj2
            · rw [e] at hmem
              exact ((h.outNodup.mem_erase_iff).1 hmem).1 rfl
            · exact hS.apart j hj2 (hsub _ hmem)
        · exact (h.segs t (mem_DLINK_Remove.1 ht2).1).mono (fun j _ hm => hsub _ hm)
      cand := fun c hc =>
        ⟨((h.cand c hc).1).mono (fun j _ hm => hsub _ hm), (h.cand c hc).2⟩
      outNodup := h.outNodup.erase _
      outValid := fun b hb2 =>
        ⟨(h.outValid b (hsub _ hb2)).1, hpermB.mem_iff.1 (h.outValid b (hsub _ hb2)).2⟩
      sum := by
        show p.m_nFreeBuffers + 1 = _
        rw [h.sum, (hperm.map SEGMENT.nNumberOfFreeBuffer).sum_eq]
        simp only [List.map_cons, List.sum_cons]
        omega
      segments := by
        show p.m_nNumberOfSegments = _
        rw [h.segments, hperm.length_eq]
        rfl
      order := List.pairwise_cons.2
        ⟨fun _ _ h0 => absurd h0 (Nat.succ_ne_zero _),
          h.order.sublist (DLINK_Remove_sublist _ _)⟩
      conserve := by
        show p.m_nFreeBuffers + 1 + (out.erase (s.base, i)).length =
          p.m_nNumberOfSegments * p.m_nNumberOfBuffersInSegment
        rw [List.length_erase_of_mem hb]
        have := h.conserve
        omega }

/-- Giving the candidate for deletion back to the system keeps the invariant. -/
theorem Inv_release {p : CObjectPool} {out : List Buffer} {c : SEGMENT}
    (h : Inv p out) (hc : p.m_pSegmentCandidateForDeletion = some c) :
    Inv { p with
          m_pSegmentCandidateForDeletion := none
          mapped := VirtualFree p.mapped c.base } out := by
  have hcn : c.base ∉ p.m_SegmentsListHead.map SEGMENT.base := by
    intro hm
    rw [List.mem_map] at hm
    obtain ⟨s, hs, e⟩ := hm
    exact h.base_ne hs hc e
  have hheld : (VirtualFree p.mapped c.base).Perm
      (p.m_SegmentsListHead.map SEGMENT.base ++ []) := by
    have h1 := h.held.erase c.base
    unfold heldBases at h1
    rw [hc] at h1
    simp only [Option.toList, List.map_cons, List.map_nil] at h1
    rw [List.erase_append_right _ hcn] at h1
    simpa [VirtualFree] using h1
  exact
    { buffers := h.buffers
      page := h.page
      fits := h.fits
      region := fun a ha => h.region a (List.mem_of_mem_erase ha)
      disjoint := h.disjoint.sublist (List.erase_sublist _ _)
      held := hheld
      bases := by
        show (p.m_SegmentsListHead.map SEGMENT.base ++ []).Nodup
        rw [List.append_nil]; exact h.activeNodup
      segs := h.segs
      cand := by intro d hd; cases hd
      outNodup := h.outNodup
      outValid := h.outValid
      sum := h.sum
      segments := h.segments
      order := h.order
      conserve := h.conserve }

/-- The first segment, all of whose buffers are free, kept aside as candidate for
deletion: the invariant is kept. -/
theorem Inv_park {p : CObjectPool} {out : List Buffer} {s : SEGMENT} {rest : List SEGMENT}
    (h : Inv p out) (hl : p.m_SegmentsListHead = s :: rest)
    (hfull : s.nNumberOfFreeBuffer = p.m_nNumberOfBuffersInSegment)
    (hc : p.m_pSegmentCandidateForDeletion = none) :
    Inv { p with
          m_pSegmentCandidateForDeletion := some s
          m_SegmentsListHead := rest
          m_nFreeBuffers := p.m_nFreeBuffers - p.m_nNumberOfBuffersInSegment
          m_nNumberOfSegments := p.m_nNumberOfSegments - 1 } out := by
  have hs : s ∈ p.m_SegmentsListHead := by rw [hl]; exact List.mem_cons_self _ _
  have hS := h.segs s hs
  have hheld : (heldBases p).Perm (rest.map SEGMENT.base ++ [s.base]) := by
    unfold heldBases
    rw [hl, hc]
    simpa using (List.perm_append_singleton s.base (rest.map SEGMENT.base)).symm
  have hsum := h.sum
  rw [hl, List.map_cons, List.sum_cons] at hsum
  have hseg := h.segments
  rw [hl, List.length_cons] at hseg
  have hord := h.order
  rw [hl, List.pairwise_cons] at hord
  exact
    { buffers := h.buffers
      page := h.page
      fits := h.fits
      region := h.region
      disjoint := h.disjoint
      held := h.held.trans hheld
      bases := hheld.nodup_iff.1 h.bases
      segs := fun t ht => h.segs t (by rw [hl]; exact List.mem_cons_of_mem _ ht)
      cand := by
        intro c hcs
        have : s = c := by simpa using hcs
        subst this
        exact ⟨hS, hfull⟩
      outNodup := h.outNodup
      outValid := by
        intro b hb
        have hv := h.outValid b hb
        refine ⟨hv.1, ?_⟩
        have hne := hS.idle hfull hb hv.1
        have hm := hv.2
        rw [hl, List.map_cons] at hm
        rcases List.mem_cons.1 hm with e | hm2
        · exact absurd e hne
        · exact hm2
      sum := by
        show p.m_nFreeBuffers - p.m_nNumberOfBuffersInSegment =
          (rest.map SEGMENT.nNumberOfFreeBuffer).sum
        omega
      segments := by
        show p.m_nNumberOfSegments - 1 = rest.length
        omega
      order := hord.2
      conserve := by
        show p.m_nFreeBuffers - p.m_nNumberOfBuffersInSegment + out.length =
          (p.m_nNumberOfSegments - 1) * p.m_nNumberOfBuffersInSegment
        have := h.conserve
        rw [hseg, Nat.add_mul, Nat.one_mul] at this
        rw [hseg, Nat.add_sub_cancel]
        omega }

/-- The first segment, all of whose buffers are free, given back to the system:
the invariant is kept. -/
theorem Inv_unmap {p : CObjectPool} {out : List Buffer} {s : SEGMENT} {rest : List SEGMENT}
    (h : Inv p out) (hl : p.m_SegmentsListHead = s :: rest)
    (hfull : s.nNumberOfFreeBuffer = p.m_nNumberOfBuffersInSegment) :
    Inv { p with
          m_SegmentsListHead := rest
          m_nFreeBuffers := p.m_nFreeBuffers - p.m_nNumberOfBuffersInSegment
          m_nNumberOfSegments := p.m_nNumberOfSegments - 1
          mapped := VirtualFree p.mapped s.base } out := by
  have hs : s ∈ p.m_SegmentsListHead := by rw [hl]; exact List.mem_cons_self _ _
  have hS := h.segs s hs
  have hheld : (VirtualFree p.mapped s.base).Perm
      (rest.map SEGMENT.base ++ p.m_pSegmentCandidateForDeletion.toList.map SEGMENT.base) := by
    have h1 := h.held.erase s.base
    unfold heldBases at h1
    rw [hl, List.map_cons, List.cons_append, List.erase_cons_head] at h1
    exact h1
  have hbases : (rest.map SEGMENT.base ++
      p.m_pSegmentCandidateForDeletion.toList.map SEGMENT.base).Nodup := by
    have h1 := h.bases
    unfold heldBases at h1
    rw [hl, List.map_cons, List.cons_append, List.nodup_cons] at h1
    exact h1.2
  have hsum := h.sum
  rw [hl, List.map_cons, List.sum_cons] at hsum
  have hseg := h.segments
  rw [hl, List.length_cons] at hseg
  have hord := h.order
  rw [hl, List.pairwise_cons] at hord
  exact
    { buffers := h.buffers
      page := h.page
      fits := h.fits
      region := fun a ha => h.region a (List.mem_of_mem_erase ha)
      disjoint := h.disjoint.sublist (List.erase_sublist _ _)
      held := hheld
      bases := hbases
      segs := fun t ht => h.segs t (by rw [hl]; exact List.mem_cons_of_mem _ ht)
      cand := h.cand
      outNodup := h.outNodup
      outValid := by
        intro b hb
        have hv := h.outValid b hb
        refine ⟨hv.1, ?_⟩
        have hne := hS.idle hfull hb hv.1
        have hm := hv.2
        rw [hl, List.map_cons] at hm
        rcases List.mem_cons.1 hm with e | hm2
        · exact absurd e hne
        · exact hm2
      sum := by
        show p.m_nFreeBuffers - p.m_nNumberOfBuffersInSegment =
          (rest.map SEGMENT.nNumberOfFreeBuffer).sum
        omega
      segments := by
        show p.m_nNumberOfSegments - 1 = rest.length
        omega
      order := hord.2
      conserve := by
        show p.m_nFreeBuffers - p.m_nNumberOfBuffersInSegment + out.length =
          (p.m_nNumberOfSegments - 1) * p.m_nNumberOfBuffersInSegment
        have := h.conserve
        rw [hseg, Nat.add_mul, Nat.one_mul] at this
        rw [hseg, Nat.add_sub_cancel]
        omega }

/-! ## The operations on a pool that satisfies the invariant -/

theorem Inv_grown {p : CObjectPool} {out : List Buffer} {os : Option Nat} {a : Nat}
    (h : Inv p out) (ha : VirtualAlloc p.mapped (segment_size p) os = some a) :
    Inv (grown p a) out := Inv_grow h ha

theorem Inv_reactivated {p : CObjectPool} {out : List Buffer} {c : SEGMENT}
    (h : Inv p out) (hc : p.m_pSegmentCandidateForDeletion = some c) :
    Inv (reactivated p c) out := Inv_reactivate h hc

theorem Inv_took {p : CObjectPool} {out : List Buffer} {s : SEGMENT} {rest : List SEGMENT}
    {i : Nat} {fl : List Nat} (h : Inv p out)
    (hl : p.m_SegmentsListHead = s :: rest) (hf : s.FreeListHead = i :: fl) :
    Inv (took p s rest fl) ((s.base, i) :: out) := by
  unfold took
  apply Inv_take h hl hf
  by_cases h0 : s.nNumberOfFreeBuffer - 1 = 0
  · right; exact ⟨h0, by rw [if_pos h0]⟩
  · left; exact ⟨h0, by rw [if_neg h0]⟩

theorem AllocateSegment_eq {p : CObjectPool} {out : List Buffer} (h : Inv p out)
    (os : Option Nat) :
    AllocateSegment p os =
      match VirtualAlloc p.mapped (segment_size p) os with
      | none => (p, false)
      | some a => (grown p a, true) := by
  unfold AllocateSegment
  cases hv : VirtualAlloc p.mapped (segment_size p) os with
  | none => rfl
  | some a =>
    have hlt := (Inv_grown h hv).free_lt
    have h1 : uadd p.m_nFreeBuffers p.m_nNumberOfBuffersInSegment =
        p.m_nFreeBuffers + p.m_nNumberOfBuffersInSegment := uadd_eq hlt.1
    have h2 : uadd p.m_nNumberOfSegments 1 = p.m_nNumberOfSegments + 1 := uadd_eq hlt.2.1
    simp only [h1, h2]
    rfl

/-- While a buffer is free, the first segment has a free buffer. -/
theorem Inv.first {p : CObjectPool} {out : List Buffer} (h : Inv p out)
    (hne : p.m_nFreeBuffers ≠ 0) :
    ∃ s rest i fl, p.m_SegmentsListHead = s :: rest ∧ s.FreeListHead = i :: fl := by
  cases hl : p.m_SegmentsListHead with
  | nil =>
    have := h.sum
    rw [hl] at this
    exact absurd this hne
  | cons s rest =>
    have hs : s ∈ p.m_SegmentsListHead := by rw [hl]; exact List.mem_cons_self _ _
    have hS := h.segs s hs
    have hpos : s.nNumberOfFreeBuffer ≠ 0 := by
      intro h0
      have hord := h.order
      rw [hl, List.pairwise_cons] at hord
      have hsum := h.sum
      rw [hl, List.map_cons, List.sum_cons, h0] at hsum
      have hz : (rest.map SEGMENT.nNumberOfFreeBuffer).sum = 0 := by
        apply List.sum_eq_zero
        intro x hx
        rw [List.mem_map] at hx
        obtain ⟨t, ht, e⟩ := hx
        rw [← e]
        exact hord.1 t ht h0
      rw [hz] at hsum
      exact hne hsum
    cases hf : s.FreeListHead with
    | nil =>
      have := hS.count
      rw [hf] at this
      exact absurd this hpos
    | cons i fl => exact ⟨s, rest, i, fl, rfl, hf⟩

theorem takeBuffer_eq {p : CObjectPool} {out : List Buffer} (h : Inv p out)
    {s : SEGMENT} {rest : List SEGMENT} {i : Nat} {fl : List Nat}
    (hl : p.m_SegmentsListHead = s :: rest) (hf : s.FreeListHead = i :: fl) :
    takeBuffer p = some (took p s rest fl, some (s.base, i)) := by
  have hs : s ∈ p.m_SegmentsListHead := by rw [hl]; exact List.mem_cons_self _ _
  have hS := h.segs s hs
  have hcount : s.nNumberOfFreeBuffer = fl.length + 1 := by rw [hS.count, hf]; rfl
  have hlt := h.free_lt
  have hle : s.nNumberOfFreeBuffer ≤ p.m_nNumberOfBuffersInSegment := by
    rw [hS.count]; exact nodup_length_le hS.nodup hS.bound
  have hfree : s.nNumberOfFreeBuffer ≤ p.m_nFreeBuffers := by
    rw [h.sum, hl, List.map_cons, List.sum_cons]; omega
  have h1 : usub s.nNumberOfFreeBuffer 1 = s.nNumberOfFreeBuffer - 1 :=
    usub_eq (by omega) (by omega)
  have h2 : usub p.m_nFreeBuffers 1 = p.m_nFreeBuffers - 1 := usub_eq (by omega) hlt.1
  have hact := h.activeNodup
  rw [hl, List.map_cons, List.nodup_cons] at hact
  have h3 : ∀ seg : SEGMENT, seg.base = s.base →
      DLINK_InsertPrev seg (DLINK_Remove s.base (seg :: rest)) = rest ++ [seg] := by
    intro seg e
    have hrm : DLINK_Remove s.base (seg :: rest) = DLINK_Remove s.base rest := by
      unfold DLINK_Remove
      simp [e]
    rw [hrm, DLINK_Remove_of_not_mem hact.1]
    rfl
  unfold takeBuffer took
  simp only [hl, hf, SLINK_Pop, h1, h2]
  rw [h3 { base := s.base, FreeListHead := fl
           nNumberOfFreeBuffer := s.nNumberOfFreeBuffer - 1 } rfl]

theorem Allocate_eq {p : CObjectPool} {out : List Buffer} (h : Inv p out) (os : Option Nat) :
    Allocate p os =
      if p.m_nFreeBuffers = 0 then
        if p.m_nNumberOfSegments > p.m_nNumberOfSegmentsHighMark then some (p, none)
        else
          match p.m_pSegmentCandidateForDeletion with
          | some c => takeBuffer (reactivated p c)
          | none =>
            match VirtualAlloc p.mapped (segment_size p) os with
            | none => some (p, none)
            | some a => takeBuffer (grown p a)
      else takeBuffer p := by
  unfold Allocate
  by_cases h0 : p.m_nFreeBuffers = 0
  · rw [if_pos h0, if_pos h0]
    by_cases hh : p.m_nNumberOfSegments > p.m_nNumberOfSegmentsHighMark
    · rw [if_pos hh, if_pos hh]
    · rw [if_neg hh, if_neg hh]
      cases hc : p.m_pSegmentCandidateForDeletion with
      | some c =>
        have hlt := (Inv_reactivated h hc).free_lt
        have h1 : uadd p.m_nFreeBuffers p.m_nNumberOfBuffersInSegment =
            p.m_nFreeBuffers + p.m_nNumberOfBuffersInSegment := uadd_eq hlt.1
        have h2 : uadd p.m_nNumberOfSegments 1 = p.m_nNumberOfSegments + 1 := uadd_eq hlt.2.1
        simp only [h1, h2]
        rfl
      | none =>
        simp only
        rw [AllocateSegment_eq h os]
        cases VirtualAlloc p.mapped (segment_size p) os with
        | none => rfl
        | some a => rfl
  · rw [if_neg h0, if_neg h0]

/-- The outcomes of `Allocate` on a pool that satisfies the invariant: the call
fails and leaves the pool as it is, or it takes the first free buffer of the
first segment, after the candidate or a new segment was linked in when no
buffer was free. -/
theorem Allocate_cases {p : CObjectPool} {out : List Buffer} (h : Inv p out)
    (os : Option Nat) :
    (Allocate p os = some (p, none) ∧ p.m_nFreeBuffers = 0 ∧
      (p.m_nNumberOfSegments > p.m_nNumberOfSegmentsHighMark ∨
        (p.m_nNumberOfSegments ≤ p.m_nNumberOfSegmentsHighMark ∧
          p.m_pSegmentCandidateForDeletion = none ∧
          VirtualAlloc p.mapped (segment_size p) os = none))) ∨
    (∃ p1 s rest i fl, Inv p1 out ∧ p1.m_SegmentsListHead = s :: rest ∧
      s.FreeListHead = i :: fl ∧
      Allocate p os = some (took p1 s rest fl, some (s.base, i)) ∧
      ((p1 = p ∧ p.m_nFreeBuffers ≠ 0) ∨
        (∃ c, p.m_nFreeBuffers = 0 ∧
          p.m_nNumberOfSegments ≤ p.m_nNumberOfSegmentsHighMark ∧
          p.m_pSegmentCandidateForDeletion = some c ∧ p1 = reactivated p c) ∨
        (∃ a, p.m_nFreeBuffers = 0 ∧
          p.m_nNumberOfSegments ≤ p.m_nNumberOfSegmentsHighMark ∧
          p.m_pSegmentCandidateForDeletion = none ∧
          VirtualAlloc p.mapped (segment_size p) os = some a ∧ p1 = grown p a))) := by
  rw [Allocate_eq h os]
  by_cases h0 : p.m_nFreeBuffers = 0
  · rw [if_pos h0]
    by_cases hh : p.m_nNumberOfSegments > p.m_nNumberOfSegmentsHighMark
    · rw [if_pos hh]
      exact Or.inl ⟨rfl, h0, Or.inl hh⟩
    · rw [if_neg hh]
      have hle : p.m_nNumberOfSegments ≤ p.m_nNumberOfSegmentsHighMark := by omega
      cases hc : p.m_pSegmentCandidateForDeletion with
      | some c =>
        right
        have hI := Inv_reactivated h hc
        have hne : (reactivated p c).m_nFreeBuffers ≠ 0 := by
          show p.m_nFreeBuffers + p.m_nNumberOfBuffersInSegment ≠ 0
          have := h.buffers
          omega
        obtain ⟨s, rest, i, fl, hl, hf⟩ := hI.first hne
        exact ⟨_, s, rest, i, fl, hI, hl, hf, takeBuffer_eq hI hl hf,
          Or.inr (Or.inl ⟨c, h0, hle, rfl, rfl⟩)⟩
      | none =>
        cases hv : VirtualAlloc p.mapped (segment_size p) os with
        | none => exact Or.inl ⟨rfl, h0, Or.inr ⟨hle, rfl, rfl⟩⟩
        | some a =>
          right
          have hI := Inv_grown h hv
          have hne : (grown p a).m_nFreeBuffers ≠ 0 := by
            show p.m_nFreeBuffers + p.m_nNumberOfBuffersInSegment ≠ 0
            have := h.buffers
            omega
          obtain ⟨s, rest, i, fl, hl, hf⟩ := hI.first hne
          exact ⟨_, s, rest, i, fl, hI, hl, hf, takeBuffer_eq hI hl hf,
            Or.inr (Or.inr ⟨a, h0, hle, rfl, rfl, rfl⟩)⟩
  · rw [if_neg h0]
    right
    obtain ⟨s, rest, i, fl, hl, hf⟩ := h.first h0
    exact ⟨p, s, rest, i, fl, h, hl, hf, takeBuffer_eq h hl hf, Or.inl ⟨rfl, h0⟩⟩

theorem Inv_freed {p : CObjectPool} {out : List Buffer} {s : SEGMENT} {i : Nat}
    (h : Inv p out) (hs : s ∈ p.m_SegmentsListHead) (hb : (s.base, i) ∈ out) :
    Inv (freed p s i) (out.erase (s.base, i)) := by
  have h1 := Inv_push h hs hb
  unfold freed releaseCandidate
  revert h1
  cases hc : p.m_pSegmentCandidateForDeletion with
  | none =>
    intro h1
    by_cases hret : s.nNumberOfFreeBuffer + 1 = p.m_nNumberOfBuffersInSegment ∧
        p.m_nNumberOfSegments > p.m_nNumberOfSegmentsLowMark
    · simp only [if_pos hret, hc]
      exact Inv_park h1 rfl hret.1 rfl
    · simp only [if_neg hret, hc]
      exact h1
  | some c =>
    intro h1
    by_cases hrel : p.m_nFreeBuffers > p.m_nCandidateDeletionLimit
    · have h2 := Inv_release h1 rfl
      by_cases hret : s.nNumberOfFreeBuffer + 1 = p.m_nNumberOfBuffersInSegment ∧
          p.m_nNumberOfSegments > p.m_nNumberOfSegmentsLowMark
      · simp only [if_pos hret, if_pos hrel]
        exact Inv_park h2 rfl hret.1 rfl
      · simp only [if_neg hret, if_pos hrel]
        exact h2
    · by_cases hret : s.nNumberOfFreeBuffer + 1 = p.m_nNumberOfBuffersInSegment ∧
          p.m_nNumberOfSegments > p.m_nNumberOfSegmentsLowMark
      · simp only [if_pos hret, if_neg hrel, hc]
        exact @Inv_unmap _ _
          { s with FreeListHead := i :: s.FreeListHead
                   nNumberOfFreeBuffer := s.nNumberOfFreeBuffer + 1 } _ h1 rfl hret.1
      · simp only [if_neg hret, if_neg hrel, hc]
        exact h1

theorem releaseCandidate_fields (p : CObjectPool) :
    (releaseCandidate p).m_nNumberOfBuffersInSegment = p.m_nNumberOfBuffersInSegment ∧
    (releaseCandidate p).m_nNumberOfSegmentsLowMark = p.m_nNumberOfSegmentsLowMark ∧
    (releaseCandidate p).m_nNumberOfSegments = p.m_nNumberOfSegments ∧
    (releaseCandidate p).m_nFreeBuffers = p.m_nFreeBuffers ∧
    (releaseCandidate p).m_SegmentsListHead = p.m_SegmentsListHead := by
  unfold releaseCandidate
  cases p.m_pSegmentCandidateForDeletion with
  | none => exact ⟨rfl, rfl, rfl, rfl, rfl⟩
  | some c =>
    simp only
    split <;> exact ⟨rfl, rfl, rfl, rfl, rfl⟩

theorem releaseCandidate_list (p : CObjectPool) (l : List SEGMENT) :
    releaseCandidate { p with m_SegmentsListHead := l } =
      { releaseCandidate p with m_SegmentsListHead := l } := by
  unfold releaseCandidate
  cases hc : p.m_pSegmentCandidateForDeletion with
  | none => simp only [hc]
  | some c =>
    simp only [hc]
    split <;> simp only [hc]

theorem pushBuffer_eq {p : CObjectPool} {out : List Buffer} {s : SEGMENT} {i : Nat}
    (h : Inv p out) (hs : s ∈ p.m_SegmentsListHead) (hb : (s.base, i) ∈ out) :
    pushBuffer p s i =
      ({ p with
         m_SegmentsListHead :=
           { s with FreeListHead := i :: s.FreeListHead
                    nNumberOfFreeBuffer := s.nNumberOfFreeBuffer + 1 } ::
             DLINK_Remove s.base p.m_SegmentsListHead },
       { s with FreeListHead := i :: s.FreeListHead
                nNumberOfFreeBuffer := s.nNumberOfFreeBuffer + 1 }) := by
  have hS := ((Inv_push h hs hb).segs _ (List.mem_cons_self _ _))
  have hle : s.nNumberOfFreeBuffer + 1 ≤ p.m_nNumberOfBuffersInSegment := by
    have := nodup_length_le hS.nodup hS.bound
    have hc := hS.count
    simp only [List.length_cons] at this hc
    omega
  have h1 : uadd s.nNumberOfFreeBuffer 1 = s.nNumberOfFreeBuffer + 1 :=
    uadd_eq (by have := h.free_lt; omega)
  have hact := h.activeNodup
  unfold pushBuffer
  simp only [h1, SLINK_Push]
  by_cases hfront : p.m_SegmentsListHead.head?.map SEGMENT.base ≠ some s.base
  · rw [if_pos hfront]
    rfl
  · rw [if_neg hfront]
    have hfront2 : p.m_SegmentsListHead.head?.map SEGMENT.base = some s.base := by
      simpa using hfront
    cases hl : p.m_SegmentsListHead with
    | nil => rw [hl] at hs; cases hs
    | cons first rest =>
      rw [hl] at hfront2 hact
      simp only [List.head?_cons, Option.map_some', Option.some.injEq] at hfront2
      rw [List.map_cons, List.nodup_cons] at hact
      have hrm : DLINK_Remove s.base (first :: rest) = rest := by
        have : DLINK_Remove s.base (first :: rest) = DLINK_Remove s.base rest := by
          unfold DLINK_Remove
          simp [hfront2]
        rw [this, DLINK_Remove_of_not_mem (hfront2 ▸ hact.1)]
      rw [hrm]
      rfl

theorem DLINK_Remove_cons_base {a : Nat} {x : SEGMENT} (l : List SEGMENT) (hx : x.base = a) :
    DLINK_Remove a (x :: DLINK_Remove a l) = DLINK_Remove a l := by
  unfold DLINK_Remove
  simp [hx]

/-- The function `Free` on a pool that satisfies the invariant, for a buffer that
a caller holds: the buffer belongs to an active segment and the call has the
effect `freed`. -/
theorem Free_eq {p : CObjectPool} {out : List Buffer} {b : Buffer}
    (h : Inv p out) (hb : b ∈ out) :
    ∃ s, s ∈ p.m_SegmentsListHead ∧ s.base = b.1 ∧ Free p b = some (freed p s b.2) := by
  obtain ⟨s, hfind⟩ := find_base_exists (h.outValid b hb).2
  obtain ⟨hs, hbase⟩ := find_base hfind
  refine ⟨s, hs, hbase, ?_⟩
  have hb2 : (s.base, b.2) ∈ out := by rw [hbase]; exact hb
  have hS := h.segs s hs
  have hlt := h.free_lt
  have hsm := h.small
  have hcon := h.conserve
  have hlen : 0 < out.length := List.length_pos_of_mem hb
  have hperm := DLINK_Remove_perm h.activeNodup hs
  have hsum : p.m_nFreeBuffers = s.nNumberOfFreeBuffer +
      ((DLINK_Remove s.base p.m_SegmentsListHead).map SEGMENT.nNumberOfFreeBuffer).sum := by
    rw [h.sum, (hperm.map SEGMENT.nNumberOfFreeBuffer).sum_eq]
    rfl
  have hseg : 0 < p.m_nNumberOfSegments := by
    rw [h.segments]; exact List.length_pos_of_mem hs
  have hF := releaseCandidate_fields p
  have e1 : uadd p.m_nFreeBuffers 1 = p.m_nFreeBuffers + 1 := uadd_eq (by omega)
  have e2 : s.nNumberOfFreeBuffer + 1 = p.m_nNumberOfBuffersInSegment →
      uadd (usub p.m_nFreeBuffers p.m_nNumberOfBuffersInSegment) 1 =
        p.m_nFreeBuffers + 1 - p.m_nNumberOfBuffersInSegment := fun hfull =>
    usub_uadd_one (by omega) hlt.1 (Nat.pos_of_ne_zero h.buffers) hlt.2.2
  have e3 : usub p.m_nNumberOfSegments 1 = p.m_nNumberOfSegments - 1 :=
    usub_eq (by omega) hlt.2.1
  have hrm : DLINK_Remove s.base
      ({ s with FreeListHead := b.2 :: s.FreeListHead
                nNumberOfFreeBuffer := s.nNumberOfFreeBuffer + 1 } ::
        DLINK_Remove s.base p.m_SegmentsListHead) =
      DLINK_Remove s.base p.m_SegmentsListHead := DLINK_Remove_cons_base _ rfl
  unfold Free
  rw [hfind]
  simp only [pushBuffer_eq h hs hb2, releaseCandidate_list]
  unfold freed retireSegment FreeSegment
  simp only [hF.1, hF.2.1, hF.2.2.1, hF.2.2.2.1]
  by_cases hret : s.nNumberOfFreeBuffer + 1 = p.m_nNumberOfBuffersInSegment ∧
      p.m_nNumberOfSegments > p.m_nNumberOfSegmentsLowMark
  · rw [if_pos hret, if_pos hret]
    cases hc : (releaseCandidate p).m_pSegmentCandidateForDeletion with
    | none =>
      simp only [hF.1, hF.2.1, hF.2.2.1, hF.2.2.2.1, e2 hret.1, e3, hrm]
    | some c =>
      simp only [hF.1, hF.2.1, hF.2.2.1, hF.2.2.2.1, e2 hret.1, e3, hrm]
  · rw [if_neg hret, if_neg hret]
    simp only [hF.2.2.2.1, e1]

/-! ## Reachable states satisfy the invariant -/

theorem releaseCandidate_marks (p : CObjectPool) :
    (releaseCandidate p).m_nNumberOfSegmentsHighMark = p.m_nNumberOfSegmentsHighMark ∧
    (releaseCandidate p).m_nCandidateDeletionLimit = p.m_nCandidateDeletionLimit := by
  unfold releaseCandidate
  cases p.m_pSegmentCandidateForDeletion with
  | none => exact ⟨rfl, rfl⟩
  | some c =>
    simp only
    split <;> exact ⟨rfl, rfl⟩

/-- What `Free` does to the marks and to the number of segments. -/
theorem freed_segments (p : CObjectPool) (s : SEGMENT) (i : Nat) :
    (freed p s i).m_nNumberOfSegmentsLowMark = p.m_nNumberOfSegmentsLowMark ∧
    (freed p s i).m_nNumberOfSegmentsHighMark = p.m_nNumberOfSegmentsHighMark ∧
    (freed p s i).m_nNumberOfBuffersInSegment = p.m_nNumberOfBuffersInSegment ∧
    (freed p s i).m_nCandidateDeletionLimit = p.m_nCandidateDeletionLimit ∧
    (freed p s i).m_nNumberOfSegments =
      if s.nNumberOfFreeBuffer + 1 = p.m_nNumberOfBuffersInSegment ∧
          p.m_nNumberOfSegments > p.m_nNumberOfSegmentsLowMark
      then p.m_nNumberOfSegments - 1 else p.m_nNumberOfSegments := by
  have hF := releaseCandidate_fields p
  have hM := releaseCandidate_marks p
  unfold freed
  by_cases hret : s.nNumberOfFreeBuffer + 1 = p.m_nNumberOfBuffersInSegment ∧
      p.m_nNumberOfSegments > p.m_nNumberOfSegmentsLowMark
  · simp only [if_pos hret]
    cases (releaseCandidate p).m_pSegmentCandidateForDeletion with
    | none => exact ⟨hF.2.1, hM.1, hF.1, hM.2, rfl⟩
    | some c => exact ⟨hF.2.1, hM.1, hF.1, hM.2, rfl⟩
  · simp only [if_neg hret]
    exact ⟨hF.2.1, hM.1, hF.1, hM.2, hF.2.2.1⟩

theorem allocateSegments_inv (os : Nat → Option Nat) :
    ∀ (n i : Nat) (p q : CObjectPool), Inv p [] → allocateSegments os n i p = some q →
      Inv q [] ∧ q.m_nNumberOfSegments = p.m_nNumberOfSegments + n ∧
        q.m_nNumberOfSegmentsLowMark = p.m_nNumberOfSegmentsLowMark ∧
        q.m_nNumberOfSegmentsHighMark = p.m_nNumberOfSegmentsHighMark := by
  intro n
  induction n with
  | zero =>
    intro i p q h hq
    simp only [allocateSegments, Option.some.injEq] at hq
    subst hq
    exact ⟨h, rfl, rfl, rfl⟩
  | succ n ih =>
    intro i p q h hq
    simp only [allocateSegments] at hq
    rw [AllocateSegment_eq h] at hq
    cases hv : VirtualAlloc p.mapped (segment_size p) (os i) with
    | none => rw [hv] at hq; simp at hq
    | some a =>
      rw [hv] at hq
      simp only at hq
      obtain ⟨h1, h2, h3, h4⟩ := ih (i + 1) (grown p a) q (Inv_grown h hv) hq
      refine ⟨h1, ?_, h3, h4⟩
      rw [h2]
      show p.m_nNumberOfSegments + 1 + n = p.m_nNumberOfSegments + (n + 1)
      omega

/-- Every reachable state satisfies the invariant, and its number of active
segments lies between the low mark and one more than the high mark. -/
theorem reachable_inv {p : CObjectPool} {out : List Buffer} (hr : Reachable p out) :
    Inv p out ∧ p.m_nNumberOfSegmentsLowMark ≤ p.m_nNumberOfSegments ∧
      p.m_nNumberOfSegments ≤ p.m_nNumberOfSegmentsHighMark + 1 := by
  induction hr with
  | create hc hp =>
    obtain ⟨hB, -, hlow, hhigh, -, -, -, hpage, hfits⟩ := hc
    unfold create at hp
    obtain ⟨h1, h2, h3, h4⟩ := allocateSegments_inv _ _ _ _ _
      (Inv_initial _ _ _ _ _ _ hB hpage hfits) hp
    dsimp only at h2 h3 h4
    refine ⟨h1, ?_, ?_⟩ <;> omega
  | @allocate p q out os b _ ha ih =>
    obtain ⟨h, hlow, hhigh⟩ := ih
    rcases Allocate_cases h os with ⟨hf, -⟩ | ⟨p1, s, rest, i, fl, hI, hl, hfl, heq, hcase⟩
    · rw [hf] at ha; simp at ha
    · rw [heq] at ha
      simp only [Option.some.injEq, Prod.mk.injEq] at ha
      obtain ⟨hq, hb⟩ := ha
      subst hq hb
      refine ⟨Inv_took hI hl hfl, ?_⟩
      rcases hcase with ⟨e, -⟩ | ⟨c, -, hle, -, e⟩ | ⟨a, -, hle, -, -, e⟩
      · subst e; exact ⟨hlow, hhigh⟩
      · subst e
        show p.m_nNumberOfSegmentsLowMark ≤ p.m_nNumberOfSegments + 1 ∧
          p.m_nNumberOfSegments + 1 ≤ p.m_nNumberOfSegmentsHighMark + 1
        constructor <;> omega
      · subst e
        show p.m_nNumberOfSegmentsLowMark ≤ p.m_nNumberOfSegments + 1 ∧
          p.m_nNumberOfSegments + 1 ≤ p.m_nNumberOfSegmentsHighMark + 1
        constructor <;> omega
  | allocateFailed _ ha ih =>
    obtain ⟨h, hlow, hhigh⟩ := ih
    rcases Allocate_cases h _ with ⟨hf, -⟩ | ⟨p1, s, rest, i, fl, hI, hl, hfl, heq, -⟩
    · rw [hf] at ha
      simp only [Option.some.injEq, Prod.mk.injEq, and_true] at ha
      subst ha
      exact ⟨h, hlow, hhigh⟩
    · rw [heq] at ha; simp at ha
  | free _ hb hf ih =>
    obtain ⟨h, hlow, hhigh⟩ := ih
    obtain ⟨s, hs, hbase, heq⟩ := Free_eq h hb
    rw [heq] at hf
    simp only [Option.some.injEq] at hf
    subst hf
    have hI := Inv_freed h hs (by rw [hbase]; exact hb)
    rw [hbase] at hI
    refine ⟨hI, ?_⟩
    obtain ⟨f1, f2, -, -, f5⟩ := freed_segments _ s _
    rw [f1, f2, f5]
    split
    · rename_i hret
      constructor <;> omega
    · exact ⟨hlow, hhigh⟩

/-- A sequence of calls that runs from a reachable state ends in a reachable
state. -/
theorem run_reachable : ∀ (cs : List Call) (p q : CObjectPool) (out out2 : List Buffer),
    Reachable p out → run cs (p, out) = some (q, out2) → Reachable q out2 := by
  intro cs
  induction cs with
  | nil =>
    intro p q out out2 hr h
    simp only [run, Option.some.injEq, Prod.mk.injEq] at h
    obtain ⟨e1, e2⟩ := h
    subst e1 e2
    exact hr
  | cons c cs ih =>
    intro p q out out2 hr h
    cases c with
    | allocate os =>
      simp only [run] at h
      cases ha : Allocate p os with
      | none => rw [ha] at h; simp at h
      | some r =>
        obtain ⟨p1, ob⟩ := r
        rw [ha] at h
        cases ob with
        | none => exact ih _ _ _ _ (Reachable.allocateFailed hr ha) h
        | some b => exact ih _ _ _ _ (Reachable.allocate hr ha) h
    | free b =>
      simp only [run] at h
      by_cases hb : b ∈ out
      · rw [if_pos hb] at h
        cases hf : Free p b with
        | none => rw [hf] at h; simp at h
        | some p1 =>
          rw [hf] at h
          exact ih _ _ _ _ (Reachable.free hr hb hf) h
      · rw [if_neg hb] at h; simp at h

/-! ## Scenarios: reachability -/

theorem contract_scenarios :
    CreateContract 4096 16 4 1 1 2 1 ∧ CreateContract 4096 16 2 1 1 1 0 ∧
      CreateContract 4096 16 10 2 1 2 3 := by
  unfold CreateContract
  exact ⟨⟨by decide, by decide, by decide, by decide, by decide, by decide, by decide,
      ⟨12, by decide, by decide⟩, by decide⟩,
    ⟨by decide, by decide, by decide, by decide, by decide, by decide, by decide,
      ⟨12, by decide, by decide⟩, by decide⟩,
    ⟨by decide, by decide, by decide, by decide, by decide, by decide, by decide,
      ⟨12, by decide, by decide⟩, by decide⟩⟩

theorem poolA_reachable : Reachable poolA [] :=
  @Reachable.create 4096 16 4 1 1 2 1 (fun _ => some 65536) poolA contract_scenarios.1
    (by decide)

theorem poolA5_reachable : Reachable poolA5 heldA5 :=
  run_reachable
    [Call.allocate none, Call.allocate none, Call.allocate none, Call.allocate none,
      Call.allocate (some 131072)] poolA poolA5 [] heldA5 poolA_reachable (by decide)

theorem poolA8_reachable : Reachable poolA8 heldA8 :=
  run_reachable [Call.free (65536, 0), Call.free (65536, 1), Call.free (65536, 2)]
    poolA5 poolA8 heldA5 heldA8 poolA5_reachable (by decide)

theorem poolB_reachable : Reachable poolB [] :=
  @Reachable.create 4096 16 2 1 1 1 0 (fun _ => some 65536) poolB contract_scenarios.2.1
    (by decide)

theorem poolB2_reachable : Reachable poolB2 heldB2 :=
  run_reachable [Call.allocate none, Call.allocate none] poolB poolB2 [] heldB2
    poolB_reachable (by decide)

theorem poolB4_reachable : Reachable poolB4 heldB4 :=
  run_reachable [Call.allocate (some 131072), Call.allocate none] poolB2 poolB4 heldB2 heldB4
    poolB2_reachable (by decide)

theorem poolH_reachable : Reachable poolH heldH :=
  run_reachable callsH poolH0 poolH [] heldH
    (@Reachable.create 4096 16 10 2 1 2 3 (fun i => some (65536 * (i + 1))) poolH0
      contract_scenarios.2.2 (by decide))
    (by decide)

theorem poolH4_reachable : Reachable poolH4 heldH4 :=
  run_reachable
    [Call.free (131072, 0), Call.free (131072, 1), Call.free (131072, 2),
      Call.free (131072, 3)] poolH poolH4 heldH heldH4 poolH_reachable (by decide)

/-! ## Claims -/

theorem allocateAll_reachable : ∀ (oss : List (Option Nat)) (p q : CObjectPool)
    (out rets : List Buffer), Reachable p out → allocateAll oss p = some (q, rets) →
    Reachable q (rets.reverse ++ out) := by
  intro oss
  induction oss with
  | nil =>
    intro p q out rets hr h
    simp only [allocateAll, Option.some.injEq, Prod.mk.injEq] at h
    obtain ⟨e1, e2⟩ := h
    subst e1 e2
    exact hr
  | cons os oss ih =>
    intro p q out rets hr h
    simp only [allocateAll] at h
    cases ha : Allocate p os with
    | none => rw [ha] at h; simp at h
    | some r =>
      obtain ⟨p1, ob⟩ := r
      rw [ha] at h
      cases ob with
      | none => exact ih _ _ _ _ (Reachable.allocateFailed hr ha) h
      | some b =>
        simp only [Option.map_eq_some'] at h
        obtain ⟨⟨q2, rets2⟩, h2, e⟩ := h
        simp only [Prod.mk.injEq] at e
        obtain ⟨e1, e2⟩ := e
        subst e1 e2
        have := ih _ _ _ _ (Reachable.allocate hr ha) h2
        simpa using this

/-- C1 (slot uniqueness): in a reachable state a successful `Allocate` returns a
buffer (segment, index) that no caller holds, and the buffers returned by a run
of calls of `Allocate` without a call of `Free` in between are pairwise distinct
and distinct from the buffers held before the run. -/
theorem C1_slot_uniqueness {p : CObjectPool} {out : List Buffer} (hr : Reachable p out) :
    (∀ os q b, Allocate p os = some (q, some b) → b ∉ out) ∧
    (∀ oss q rets, allocateAll oss p = some (q, rets) →
      rets.Nodup ∧ ∀ b ∈ rets, b ∉ out) := by
  constructor
  · intro os q b ha
    have h := (reachable_inv (Reachable.allocate hr ha)).1.outNodup
    exact (List.nodup_cons.1 h).1
  · intro oss q rets ha
    have h := (reachable_inv (allocateAll_reachable oss p q out rets hr ha)).1.outNodup
    rw [List.nodup_append] at h
    refine ⟨List.nodup_reverse.1 h.1, ?_⟩
    intro b hb hout
    exact h.2.2 (List.mem_reverse.2 hb) hout

/-- Witness of C1 in scenario A: with five buffers held, three more calls return
three buffers that are distinct and not held. -/
theorem C1_slot_uniqueness_witness :
    Reachable poolA5 heldA5 ∧
      allocateAll [none, none, none] poolA5 =
        some (poolAfull, [(131072, 2), (131072, 1), (131072, 0)]) ∧
      ([(131072, 2), (131072, 1), (131072, 0)] : List Buffer).Nodup ∧
      ∀ b ∈ ([(131072, 2), (131072, 1), (131072, 0)] : List Buffer), b ∉ heldA5 :=
  ⟨poolA5_reachable, by decide,
    (C1_slot_uniqueness poolA5_reachable).2 [none, none, none] poolAfull _ (by decide)⟩

/-- C2 (conservation): in a reachable state the free buffers counted by the pool
and the buffers held by callers add up to the buffers of the active segments. -/
theorem C2_conservation {p : CObjectPool} {out : List Buffer} (hr : Reachable p out) :
    p.m_nFreeBuffers + out.length =
      p.m_nNumberOfSegments * p.m_nNumberOfBuffersInSegment :=
  (reachable_inv hr).1.conserve

/-- Witness of C2 in scenario A, after the first segment was parked as candidate
for deletion: 3 free buffers, 1 held, 1 active segment of 4 buffers. -/
theorem C2_conservation_witness :
    Reachable poolA9 [(131072, 3)] ∧
      poolA9.m_nFreeBuffers + ([(131072, 3)] : List Buffer).length =
        poolA9.m_nNumberOfSegments * poolA9.m_nNumberOfBuffersInSegment :=
  ⟨run_reachable [Call.free (65536, 3)] poolA8 poolA9 heldA8 [(131072, 3)]
      poolA8_reachable (by decide),
    C2_conservation (run_reachable [Call.free (65536, 3)] poolA8 poolA9 heldA8 [(131072, 3)]
      poolA8_reachable (by decide))⟩

/-- C3 (failure of `Allocate`): in a reachable state `Allocate` returns `NULL`
exactly when no buffer is free and either the number of active segments is above
the high mark, or there is no candidate for deletion and the system refuses the
mapping. Every call returns, with a buffer or with `NULL`; it returns a buffer
when a buffer is free; and when a candidate exists and the number of active
segments is at most the high mark it returns the same buffer whatever the system
would answer. -/
theorem C3_allocate_failure {p : CObjectPool} {out : List Buffer} (hr : Reachable p out)
    (os : Option Nat) :
    ((∃ q, Allocate p os = some (q, none)) ↔
      (p.m_nFreeBuffers = 0 ∧
        (p.m_nNumberOfSegments > p.m_nNumberOfSegmentsHighMark ∨
          (p.m_pSegmentCandidateForDeletion = none ∧
            VirtualAlloc p.mapped (segment_size p) os = none)))) ∧
    ((∃ q, Allocate p os = some (q, none)) ∨ ∃ q b, Allocate p os = some (q, some b)) ∧
    (p.m_nFreeBuffers > 0 → ∃ q b, Allocate p os = some (q, some b)) ∧
    (p.m_pSegmentCandidateForDeletion ≠ none →
      p.m_nNumberOfSegments ≤ p.m_nNumberOfSegmentsHighMark →
      ∃ q b, ∀ os2, Allocate p os2 = some (q, some b)) := by
  have h := (reachable_inv hr).1
  have hcases := Allocate_cases h os
  refine ⟨⟨?_, ?_⟩, ?_, ?_, ?_⟩
  · rintro ⟨q, hq⟩
    rcases hcases with ⟨-, h0, hc⟩ | ⟨p1, s, rest, i, fl, -, -, -, heq, -⟩
    · refine ⟨h0, ?_⟩
      rcases hc with hc | ⟨-, hc1, hc2⟩
      · exact Or.inl hc
      · exact Or.inr ⟨hc1, hc2⟩
    · rw [heq] at hq; simp at hq
  · rintro ⟨h0, hc⟩
    rcases hcases with ⟨hf, -⟩ | ⟨p1, s, rest, i, fl, -, -, -, -, hcase⟩
    · exact ⟨p, hf⟩
    · exfalso
      rcases hcase with ⟨-, hne⟩ | ⟨c, -, hle, hcand, -⟩ | ⟨a, -, hle, -, hv, -⟩
      · exact hne h0
      · rcases hc with hc | ⟨hc1, -⟩
        · omega
        · rw [hcand] at hc1; cases hc1
      · rcases hc with hc | ⟨-, hc2⟩
        · omega
        · rw [hv] at hc2; cases hc2
  · rcases hcases with ⟨hf, -⟩ | ⟨p1, s, rest, i, fl, -, -, -, heq, -⟩
    · exact Or.inl ⟨p, hf⟩
    · exact Or.inr ⟨_, _, heq⟩
  · intro hpos
    rcases hcases with ⟨-, h0, -⟩ | ⟨p1, s, rest, i, fl, -, -, -, heq, -⟩
    · omega
    · exact ⟨_, _, heq⟩
  · intro hcand hle
    rcases hcases with ⟨-, -, hc⟩ | ⟨p1, s, rest, i, fl, -, -, -, heq, -⟩
    · exfalso
      rcases hc with hc | ⟨-, hc1, -⟩
      · omega
      · exact hcand hc1
    · refine ⟨took p1 s rest fl, (s.base, i), fun os2 => ?_⟩
      rw [← heq, Allocate_eq h os2, Allocate_eq h os]
      cases hc : p.m_pSegmentCandidateForDeletion with
      | none => exact absurd hc hcand
      | some c => rfl

/-- Witness of C3 in scenario B: all buffers of the only segment are held and the
system refuses to map a segment, so `Allocate` returns `NULL`. -/
theorem C3_allocate_failure_witness :
    Reachable poolB2 heldB2 ∧
      ((∃ q, Allocate poolB2 none = some (q, none)) ↔
        (poolB2.m_nFreeBuffers = 0 ∧
          (poolB2.m_nNumberOfSegments > poolB2.m_nNumberOfSegmentsHighMark ∨
            (poolB2.m_pSegmentCandidateForDeletion = none ∧
              VirtualAlloc poolB2.mapped (segment_size poolB2) none = none)))) ∧
      Allocate poolB2 none = some (poolB2, none) :=
  ⟨poolB2_reachable, (C3_allocate_failure poolB2_reachable none).1, by decide⟩

/-- C4 (high mark enforcement), the code at scenario B: the pool was created with
start = low = high = 1 and both buffers of its segment are held, so the number of
active segments equals the high mark and no buffer is free; the next `Allocate`
does not fail: it asks the system for a segment and returns a buffer of it, and
the pool then has two active segments, one more than the high mark. -/
theorem C4_high_mark_not_enforced :
    Reachable poolB2 heldB2 ∧
      poolB2.m_nNumberOfSegments = poolB2.m_nNumberOfSegmentsHighMark ∧
      poolB2.m_nFreeBuffers = 0 ∧
      Allocate poolB2 (some 131072) = some (poolB3, some (131072, 1)) ∧
      poolB3.m_nNumberOfSegments = poolB3.m_nNumberOfSegmentsHighMark + 1 :=
  ⟨poolB2_reachable, by decide, by decide, by decide, by decide⟩

theorem AllocateSegment_false {p q : CObjectPool} {os : Option Nat}
    (h : AllocateSegment p os = (q, false)) : q = p := by
  unfold AllocateSegment at h
  cases hv : VirtualAlloc p.mapped (segment_size p) os with
  | none =>
    rw [hv] at h
    simp only [Prod.mk.injEq, and_true] at h
    exact h.symm
  | some a =>
    rw [hv] at h
    simp at h

theorem takeBuffer_returns {p q : CObjectPool} {r : Option Buffer}
    (h : takeBuffer p = some (q, r)) : r ≠ none := by
  unfold takeBuffer at h
  cases hl : p.m_SegmentsListHead with
  | nil => rw [hl] at h; simp at h
  | cons s rest =>
    rw [hl] at h
    simp only at h
    cases hf : SLINK_Pop s.FreeListHead with
    | none => rw [hf] at h; simp at h
    | some x =>
      rw [hf] at h
      simp only [Option.some.injEq, Prod.mk.injEq] at h
      rw [← h.2]
      simp

/-- C5 (failure atomicity of `Allocate`): when `Allocate` returns `NULL`, be it
because the high mark is exceeded or because the system refused the mapping, the
pool after the call is the pool before the call: segment list and its order, free
lists, counters, candidate for deletion and mapped regions. -/
theorem C5_failure_atomicity {p q : CObjectPool} {os : Option Nat}
    (h : Allocate p os = some (q, none)) : q = p := by
  unfold Allocate at h
  split at h
  · split at h
    · simp only [Option.some.injEq, Prod.mk.injEq, and_true] at h
      exact h.symm
    · split at h
      · exact absurd rfl (takeBuffer_returns h)
      · split at h
        · rename_i p1 hp1
          simp only [Option.some.injEq, Prod.mk.injEq, and_true] at h
          rw [← h]
          exact AllocateSegment_false hp1
        · exact absurd rfl (takeBuffer_returns h)
  · exact absurd rfl (takeBuffer_returns h)

/-- Witness of C5 in scenario B: `Allocate` fails because the system refuses the
mapping (two buffers held, one segment), and fails because the high mark is
exceeded (four buffers held, two segments); the pool is unchanged both times. -/
theorem C5_failure_atomicity_witness :
    Allocate poolB2 none = some (poolB2, none) ∧ poolB2 = poolB2 ∧
      Allocate poolB4 (some 262144) = some (poolB4, none) ∧ poolB4 = poolB4 :=
  ⟨by decide, @C5_failure_atomicity poolB2 poolB2 none (by decide),
    by decide, @C5_failure_atomicity poolB4 poolB4 (some 262144) (by decide)⟩

/-- C6 (invariant I3), the code at scenario B: the pool was created with
start = low = high = 1; after four completed calls of `Allocate` it has two
active segments, above the high mark. The lower bound holds. -/
theorem C6_high_mark_exceeded :
    Reachable poolB4 heldB4 ∧
      poolB4.m_nNumberOfSegmentsLowMark ≤ poolB4.m_nNumberOfSegments ∧
      ¬ poolB4.m_nNumberOfSegments ≤ poolB4.m_nNumberOfSegmentsHighMark :=
  ⟨poolB4_reachable, by decide, by decide⟩

/-- C7 (low mark floor): in a reachable state the number of active segments is at
least the low mark, and every `Free` of a held buffer returns and leaves the low
mark as it is and the number of active segments at least the low mark. -/
theorem C7_low_mark_floor {p : CObjectPool} {out : List Buffer} (hr : Reachable p out) :
    p.m_nNumberOfSegmentsLowMark ≤ p.m_nNumberOfSegments ∧
    ∀ b ∈ out, ∃ q, Free p b = some q ∧
      q.m_nNumberOfSegmentsLowMark = p.m_nNumberOfSegmentsLowMark ∧
      q.m_nNumberOfSegmentsLowMark ≤ q.m_nNumberOfSegments := by
  refine ⟨(reachable_inv hr).2.1, ?_⟩
  intro b hb
  obtain ⟨s, -, -, heq⟩ := Free_eq (reachable_inv hr).1 hb
  refine ⟨_, heq, (freed_segments p s b.2).1, ?_⟩
  exact (reachable_inv (Reachable.free hr hb heq)).2.1

/-- Witness of C7 in scenario A: the `Free` that makes the first segment idle
parks it and leaves one active segment, the low mark. -/
theorem C7_low_mark_floor_witness :
    Reachable poolA8 heldA8 ∧
      poolA8.m_nNumberOfSegmentsLowMark ≤ poolA8.m_nNumberOfSegments ∧
      (∀ b ∈ heldA8, ∃ q, Free poolA8 b = some q ∧
        q.m_nNumberOfSegmentsLowMark = poolA8.m_nNumberOfSegmentsLowMark ∧
        q.m_nNumberOfSegmentsLowMark ≤ q.m_nNumberOfSegments) ∧
      Free poolA8 (65536, 3) = some poolA9 ∧ poolA9.m_nNumberOfSegments = 1 :=
  ⟨poolA8_reachable, (C7_low_mark_floor poolA8_reachable).1,
    (C7_low_mark_floor poolA8_reachable).2, by decide, by decide⟩

theorem Inv.cand_mapped {p : CObjectPool} {out : List Buffer} (h : Inv p out)
    {c : SEGMENT} (hc : p.m_pSegmentCandidateForDeletion = some c) : c.base ∈ p.mapped := by
  rw [h.held.mem_iff]
  unfold heldBases
  rw [hc]
  simp

theorem Inv.active_mapped {p : CObjectPool} {out : List Buffer} (h : Inv p out)
    {s : SEGMENT} (hs : s ∈ p.m_SegmentsListHead) : s.base ∈ p.mapped := by
  rw [h.held.mem_iff]
  exact heldBases_mem_of_active (List.mem_map_of_mem SEGMENT.base hs)

/-- Two active segments at one address are one segment. -/
theorem Inv.same_segment {p : CObjectPool} {out : List Buffer} (h : Inv p out)
    {s t : SEGMENT} (hs : s ∈ p.m_SegmentsListHead) (ht : t ∈ p.m_SegmentsListHead)
    (e : s.base = t.base) : s = t :=
  List.inj_on_of_nodup_map h.activeNodup hs ht e

theorem DLINK_Remove_eq_erase {l : List SEGMENT} (hn : (l.map SEGMENT.base).Nodup)
    {s : SEGMENT} (hs : s ∈ l) : DLINK_Remove s.base l = l.erase s := by
  induction l with
  | nil => cases hs
  | cons x xs ih =>
    rw [List.map_cons, List.nodup_cons] at hn
    by_cases e : x = s
    · subst e
      rw [DLINK_Remove_cons_self, DLINK_Remove_of_not_mem hn.1, List.erase_cons_head]
    · have hmem : s ∈ xs := by
        rcases List.mem_cons.1 hs with h1 | h1
        · exact absurd h1.symm e
        · exact h1
      have hne : x.base ≠ s.base := fun hb =>
        hn.1 (hb ▸ List.mem_map_of_mem SEGMENT.base hmem)
      have hx : DLINK_Remove s.base (x :: xs) = x :: DLINK_Remove s.base xs := by
        unfold DLINK_Remove
        simp [hne]
      rw [hx, ih hn.2 hmem, List.erase_cons_tail (by simpa using e)]

/-- The regions mapped after `Free`: the candidate is gone exactly when it was
released, which happens when the free buffer count at entry exceeds the limit. -/
theorem freed_mapped {p : CObjectPool} {out : List Buffer} {s c : SEGMENT} {i : Nat}
    (h : Inv p out) (hs : s ∈ p.m_SegmentsListHead)
    (hc : p.m_pSegmentCandidateForDeletion = some c) :
    c.base ∉ (freed p s i).mapped ↔
      p.m_nFreeBuffers > p.m_nCandidateDeletionLimit := by
  have hcm := h.cand_mapped hc
  have hne : c.base ≠ s.base := fun e => h.base_ne hs hc e.symm
  have hnd := h.mappedNodup
  have hgone : c.base ∉ VirtualFree p.mapped c.base := by
    unfold VirtualFree
    exact fun hm => (hnd.mem_erase_iff.1 hm).1 rfl
  have hstay : c.base ∈ VirtualFree p.mapped s.base := by
    unfold VirtualFree
    exact (List.mem_erase_of_ne hne).2 hcm
  by_cases hrel : p.m_nFreeBuffers > p.m_nCandidateDeletionLimit
  · have hm : (freed p s i).mapped = VirtualFree p.mapped c.base := by
      unfold freed releaseCandidate
      simp only [hc, if_pos hrel]
      split <;> rfl
    rw [hm]
    exact ⟨fun _ => hrel, fun _ => hgone⟩
  · have hm : (freed p s i).mapped = p.mapped ∨
        (freed p s i).mapped = VirtualFree p.mapped s.base := by
      unfold freed releaseCandidate
      simp only [hc, if_neg hrel]
      split
      · exact Or.inr rfl
      · exact Or.inl rfl
    constructor
    · intro hn
      rcases hm with e | e
      · rw [e] at hn; exact absurd hcm hn
      · rw [e] at hn; exact absurd hstay hn
    · intro hgt
      exact absurd hgt hrel

/-- C8 (hysteresis): in a reachable state with a candidate for deletion, which is
a mapped region, a `Free` of a held buffer returns and gives the candidate back
to the system exactly when the free buffer count at entry to the call is
strictly greater than the deletion limit; no call of `Allocate` gives it
back. -/
theorem C8_hysteresis {p : CObjectPool} {out : List Buffer} (hr : Reachable p out)
    {c : SEGMENT} (hc : p.m_pSegmentCandidateForDeletion = some c) :
    c.base ∈ p.mapped ∧
    (∀ b ∈ out, ∃ q, Free p b = some q ∧
      (c.base ∉ q.mapped ↔ p.m_nFreeBuffers > p.m_nCandidateDeletionLimit)) ∧
    (∀ os q r, Allocate p os = some (q, r) → c.base ∈ q.mapped) := by
  have h := (reachable_inv hr).1
  have hcm := h.cand_mapped hc
  refine ⟨hcm, ?_, ?_⟩
  · intro b hb
    obtain ⟨s, hs, -, heq⟩ := Free_eq h hb
    exact ⟨_, heq, freed_mapped h hs hc⟩
  · intro os q r ha
    rcases Allocate_cases h os with ⟨hf, -⟩ | ⟨p1, s, rest, i, fl, -, -, -, heq, hcase⟩
    · rw [hf] at ha
      simp only [Option.some.injEq, Prod.mk.injEq] at ha
      rw [← ha.1]
      exact hcm
    · rw [heq] at ha
      simp only [Option.some.injEq, Prod.mk.injEq] at ha
      rw [← ha.1]
      rcases hcase with ⟨e, -⟩ | ⟨d, -, -, -, e⟩ | ⟨a, -, -, -, -, e⟩
      · subst e; exact hcm
      · subst e; exact hcm
      · subst e; exact List.mem_cons_of_mem _ hcm

/-- Witness of C8: ten buffers per segment, deletion limit 3, the segment at
65536 is the candidate and no buffer is free. The candidate stays mapped in the
first `Free` (free count 0 at entry) and, after four buffers were freed, is given
back by the fifth `Free` (free count 4 at entry). Run from the start, the
candidate is still mapped after one, two, three and four calls of `Free` and
gone after the fifth. -/
theorem C8_hysteresis_witness :
    Reachable poolH heldH ∧ Reachable poolH4 heldH4 ∧
      (∃ q, Free poolH (131072, 0) = some q ∧
        ((65536 : Nat) ∉ q.mapped ↔
          poolH.m_nFreeBuffers > poolH.m_nCandidateDeletionLimit)) ∧
      ¬ poolH.m_nFreeBuffers > poolH.m_nCandidateDeletionLimit ∧
      (∃ q, Free poolH4 (131072, 4) = some q ∧
        ((65536 : Nat) ∉ q.mapped ↔
          poolH4.m_nFreeBuffers > poolH4.m_nCandidateDeletionLimit)) ∧
      poolH4.m_nFreeBuffers > poolH4.m_nCandidateDeletionLimit ∧
      (List.range 6).map (fun n =>
        (run ((List.range n).map (fun i => Call.free (131072, i))) (poolH, heldH)).map
          (fun st => decide ((65536 : Nat) ∈ st.1.mapped))) =
        [some true, some true, some true, some true, some true, some false] :=
  ⟨poolH_reachable, poolH4_reachable,
    (@C8_hysteresis poolH heldH poolH_reachable
      { base := 65536, FreeListHead := [9, 8, 7, 6, 5, 4, 3, 2, 1, 0]
        nNumberOfFreeBuffer := 10 } rfl).2.1 (131072, 0) (by decide),
    by decide,
    (@C8_hysteresis poolH4 heldH4 poolH4_reachable
      { base := 65536, FreeListHead := [9, 8, 7, 6, 5, 4, 3, 2, 1, 0]
        nNumberOfFreeBuffer := 10 } rfl).2.1 (131072, 4) (by decide),
    by decide, by decide⟩

theorem freed_free (p : CObjectPool) (s : SEGMENT) (i : Nat) :
    (freed p s i).m_nFreeBuffers =
      if s.nNumberOfFreeBuffer + 1 = p.m_nNumberOfBuffersInSegment ∧
          p.m_nNumberOfSegments > p.m_nNumberOfSegmentsLowMark
      then p.m_nFreeBuffers + 1 - p.m_nNumberOfBuffersInSegment
      else p.m_nFreeBuffers + 1 := by
  unfold freed
  by_cases hret : s.nNumberOfFreeBuffer + 1 = p.m_nNumberOfBuffersInSegment ∧
      p.m_nNumberOfSegments > p.m_nNumberOfSegmentsLowMark
  · simp only [if_pos hret]
    cases (releaseCandidate p).m_pSegmentCandidateForDeletion with
    | none => rfl
    | some c => rfl
  · simp only [if_neg hret]

theorem releaseCandidate_none {p : CObjectPool}
    (h : p.m_pSegmentCandidateForDeletion = none ∨
      p.m_nFreeBuffers > p.m_nCandidateDeletionLimit) :
    (releaseCandidate p).m_pSegmentCandidateForDeletion = none := by
  unfold releaseCandidate
  cases hc : p.m_pSegmentCandidateForDeletion with
  | none => simp only [hc]
  | some c =>
    rcases h with h | h
    · rw [hc] at h; cases h
    · simp only [if_pos h]

/-- A `Free` that retires its segment changes the candidate for deletion or the
mapped regions. -/
theorem freed_retire_changes {p : CObjectPool} {out : List Buffer} {s : SEGMENT} {i : Nat}
    (h : Inv p out) (hs : s ∈ p.m_SegmentsListHead)
    (hret : s.nNumberOfFreeBuffer + 1 = p.m_nNumberOfBuffersInSegment ∧
      p.m_nNumberOfSegments > p.m_nNumberOfSegmentsLowMark) :
    (freed p s i).m_pSegmentCandidateForDeletion ≠ p.m_pSegmentCandidateForDeletion ∨
      (freed p s i).mapped ≠ p.mapped := by
  cases hc : p.m_pSegmentCandidateForDeletion with
  | none =>
    left
    have h2 := releaseCandidate_none (Or.inl hc)
    unfold freed
    simp only [if_pos hret, h2]
    simp
  | some c =>
    have hne : s.base ≠ c.base := h.base_ne hs hc
    by_cases hrel : p.m_nFreeBuffers > p.m_nCandidateDeletionLimit
    · left
      have h2 := releaseCandidate_none (Or.inr hrel)
      unfold freed
      simp only [if_pos hret, h2]
      intro e
      simp only [Option.some.injEq] at e
      have hbase := congrArg SEGMENT.base e
      exact hne hbase
    · right
      unfold freed releaseCandidate
      simp only [if_pos hret, hc, if_neg hrel]
      intro e
      have hlen := congrArg List.length e
      simp only [VirtualFree] at hlen
      rw [List.length_erase_of_mem (h.active_mapped hs)] at hlen
      have := List.length_pos_of_mem (h.active_mapped hs)
      omega

/-- C9 (round trip): in a reachable state with a free buffer, where `Allocate`
maps and reactivates no segment, `Allocate` returns a buffer and the `Free` of
that buffer returns; when this `Free` neither releases the candidate for deletion
nor retires a segment, so that the candidate and the mapped regions are the same
before and after it, the free buffer count and the number of active segments are
back at their values before the `Allocate`. -/
theorem C9_round_trip {p : CObjectPool} {out : List Buffer} (hr : Reachable p out)
    (os : Option Nat) (hfree : p.m_nFreeBuffers > 0) :
    ∃ q b, Allocate p os = some (q, some b) ∧ ∃ r, Free q b = some r ∧
      (r.m_pSegmentCandidateForDeletion = q.m_pSegmentCandidateForDeletion →
        r.mapped = q.mapped →
        r.m_nFreeBuffers = p.m_nFreeBuffers ∧
          r.m_nNumberOfSegments = p.m_nNumberOfSegments) := by
  have h := (reachable_inv hr).1
  rcases Allocate_cases h os with ⟨-, h0, -⟩ | ⟨p1, s, rest, i, fl, -, -, -, heq, hcase⟩
  · omega
  · have hp1 : p1 = p := by
      rcases hcase with ⟨e, -⟩ | ⟨c, h0, -⟩ | ⟨a, h0, -⟩
      · exact e
      · omega
      · omega
    subst hp1
    have hq := (reachable_inv (Reachable.allocate hr heq)).1
    obtain ⟨t, ht, -, hfr⟩ := Free_eq hq (List.mem_cons_self _ _)
    refine ⟨_, _, heq, _, hfr, ?_⟩
    intro hc hm
    have hnr : ¬ (t.nNumberOfFreeBuffer + 1 =
        (took p1 s rest fl).m_nNumberOfBuffersInSegment ∧
        (took p1 s rest fl).m_nNumberOfSegments >
          (took p1 s rest fl).m_nNumberOfSegmentsLowMark) := by
      intro hret
      rcases freed_retire_changes hq ht hret with e | e
      · exact e hc
      · exact e hm
    rw [freed_free, (freed_segments _ _ _).2.2.2.2, if_neg hnr, if_neg hnr]
    refine ⟨?_, rfl⟩
    show p1.m_nFreeBuffers - 1 + 1 = p1.m_nFreeBuffers
    omega

/-- Witness of C9 in scenario A: with five buffers held and three free,
`Allocate` returns buffer 2 of the segment at 131072 and the `Free` of it brings
the pool back to 3 free buffers and 2 active segments. -/
theorem C9_round_trip_witness :
    Reachable poolA5 heldA5 ∧ poolA5.m_nFreeBuffers > 0 ∧
      (∃ q b, Allocate poolA5 none = some (q, some b) ∧ ∃ r, Free q b = some r ∧
        (r.m_pSegmentCandidateForDeletion = q.m_pSegmentCandidateForDeletion →
          r.mapped = q.mapped →
          r.m_nFreeBuffers = poolA5.m_nFreeBuffers ∧
            r.m_nNumberOfSegments = poolA5.m_nNumberOfSegments)) ∧
      (Allocate poolA5 none).bind (fun x => x.2.bind (fun b => Free x.1 b)) =
        some poolA5 :=
  ⟨poolA5_reachable, by decide, C9_round_trip poolA5_reachable none (by decide), by decide⟩

theorem freed_park {p : CObjectPool} {s : SEGMENT} {i : Nat}
    (hret : s.nNumberOfFreeBuffer + 1 = p.m_nNumberOfBuffersInSegment ∧
      p.m_nNumberOfSegments > p.m_nNumberOfSegmentsLowMark)
    (hnc : p.m_pSegmentCandidateForDeletion = none ∨
      p.m_nFreeBuffers > p.m_nCandidateDeletionLimit) :
    (freed p s i).m_pSegmentCandidateForDeletion =
        some { base := s.base, FreeListHead := i :: s.FreeListHead
               nNumberOfFreeBuffer := p.m_nNumberOfBuffersInSegment } ∧
      (freed p s i).m_SegmentsListHead = DLINK_Remove s.base p.m_SegmentsListHead := by
  have h2 := releaseCandidate_none hnc
  unfold freed
  simp only [if_pos hret]
  simp only [h2, hret.1]
  exact ⟨trivial, trivial⟩

/-- C10 (promotion to candidate for deletion): in a reachable state with more
active segments than the low mark, let a `Free` give back the last held buffer of
a segment, and let no candidate remain after the release check of that call
(there is none, or the free buffer count at entry exceeds the deletion limit).
Then the call returns, that segment with all its buffers free is the candidate,
the active list is the former list without exactly that segment, the number of
active segments went down by one, and the free buffer count is the sum of the
free buffers of the active segments that remain. -/
theorem C10_promotion {p : CObjectPool} {out : List Buffer} (hr : Reachable p out)
    {b : Buffer} (hb : b ∈ out) {s : SEGMENT} (hs : s ∈ p.m_SegmentsListHead)
    (hsb : s.base = b.1)
    (hlow : p.m_nNumberOfSegments > p.m_nNumberOfSegmentsLowMark)
    (hidle : s.nNumberOfFreeBuffer + 1 = p.m_nNumberOfBuffersInSegment)
    (hnc : p.m_pSegmentCandidateForDeletion = none ∨
      p.m_nFreeBuffers > p.m_nCandidateDeletionLimit) :
    ∃ q, Free p b = some q ∧
      q.m_pSegmentCandidateForDeletion =
        some { base := s.base, FreeListHead := b.2 :: s.FreeListHead
               nNumberOfFreeBuffer := p.m_nNumberOfBuffersInSegment } ∧
      q.m_SegmentsListHead = p.m_SegmentsListHead.erase s ∧
      q.m_nNumberOfSegments + 1 = p.m_nNumberOfSegments ∧
      q.m_nFreeBuffers = (q.m_SegmentsListHead.map SEGMENT.nNumberOfFreeBuffer).sum := by
  have h := (reachable_inv hr).1
  obtain ⟨t, ht, htb, heq⟩ := Free_eq h hb
  have e : t = s := h.same_segment ht hs (by rw [htb, hsb])
  subst e
  have hq := (reachable_inv (Reachable.free hr hb heq)).1
  obtain ⟨f1, f2⟩ := @freed_park p t b.2 ⟨hidle, hlow⟩ hnc
  refine ⟨_, heq, f1, ?_, ?_, hq.sum⟩
  · rw [f2, DLINK_Remove_eq_erase h.activeNodup hs]
  · rw [(freed_segments _ _ _).2.2.2.2, if_pos ⟨hidle, hlow⟩]
    omega

/-- Witness of C10 in scenario A: freeing the fourth buffer of the first segment,
with two active segments and low mark 1, makes that segment the candidate
and leaves one active segment and 3 free buffers. -/
theorem C10_promotion_witness :
    Reachable poolA8 heldA8 ∧
      (∃ q, Free poolA8 (65536, 3) = some q ∧
        q.m_pSegmentCandidateForDeletion =
          some { base := 65536, FreeListHead := [3, 2, 1, 0], nNumberOfFreeBuffer := 4 } ∧
        q.m_SegmentsListHead = poolA8.m_SegmentsListHead.erase
          { base := 65536, FreeListHead := [2, 1, 0], nNumberOfFreeBuffer := 3 } ∧
        q.m_nNumberOfSegments + 1 = poolA8.m_nNumberOfSegments ∧
        q.m_nFreeBuffers = (q.m_SegmentsListHead.map SEGMENT.nNumberOfFreeBuffer).sum) ∧
      Free poolA8 (65536, 3) = some poolA9 ∧
      poolA9.m_nNumberOfSegments = 1 ∧ poolA9.m_nFreeBuffers = 3 :=
  ⟨poolA8_reachable,
    @C10_promotion poolA8 heldA8 poolA8_reachable (65536, 3) (by decide)
      { base := 65536, FreeListHead := [2, 1, 0], nNumberOfFreeBuffer := 3 }
      (by decide) rfl (by decide) (by decide) (by decide),
    by decide, by decide, by decide⟩

theorem poolB3_reachable : Reachable poolB3 heldB3 :=
  run_reachable [Call.allocate (some 131072)] poolB2 poolB3 heldB2 heldB3
    poolB2_reachable (by decide)

theorem poolB6_reachable : Reachable poolB6 heldB2 :=
  run_reachable [Call.free (131072, 1)] poolB3 poolB6 heldB3 heldB2
    poolB3_reachable (by decide)

theorem poolA7_reachable : Reachable poolA7 heldA7 :=
  run_reachable [Call.free (65536, 0), Call.free (65536, 1)] poolA5 poolA7 heldA5 heldA7
    poolA5_reachable (by decide)

theorem freed_list (p : CObjectPool) (s : SEGMENT) (i : Nat) :
    (freed p s i).m_SegmentsListHead =
      if s.nNumberOfFreeBuffer + 1 = p.m_nNumberOfBuffersInSegment ∧
          p.m_nNumberOfSegments > p.m_nNumberOfSegmentsLowMark
      then DLINK_Remove s.base p.m_SegmentsListHead
      else { s with FreeListHead := i :: s.FreeListHead
                    nNumberOfFreeBuffer := s.nNumberOfFreeBuffer + 1 } ::
             DLINK_Remove s.base p.m_SegmentsListHead := by
  unfold freed
  by_cases hret : s.nNumberOfFreeBuffer + 1 = p.m_nNumberOfBuffersInSegment ∧
      p.m_nNumberOfSegments > p.m_nNumberOfSegmentsLowMark
  · simp only [if_pos hret]
    cases (releaseCandidate p).m_pSegmentCandidateForDeletion with
    | none => rfl
    | some c => rfl
  · simp only [if_neg hret]

theorem Inv.remove_first {p : CObjectPool} {out : List Buffer} (h : Inv p out)
    {s : SEGMENT} {rest : List SEGMENT} (hl : p.m_SegmentsListHead = s :: rest) :
    DLINK_Remove s.base p.m_SegmentsListHead = rest := by
  have hact := h.activeNodup
  rw [hl, List.map_cons, List.nodup_cons] at hact
  rw [hl, DLINK_Remove_cons_self, DLINK_Remove_of_not_mem hact.1]

/-- C11 as stated fails in scenario A: the segment at 65536 is first in the active
list and a caller holds its buffer 3; the `Free` of that buffer makes the segment
idle and parks it, so the active list loses its first segment. -/
theorem C11_counterexample :
    Reachable poolA8 heldA8 ∧ ((65536, 3) : Buffer) ∈ heldA8 ∧
      poolA8.m_SegmentsListHead.head?.map SEGMENT.base = some 65536 ∧
      Free poolA8 (65536, 3) = some poolA9 ∧
      poolA9.m_SegmentsListHead.map SEGMENT.base ≠
        poolA8.m_SegmentsListHead.map SEGMENT.base :=
  ⟨poolA8_reachable, by decide, by decide, by decide, by decide⟩

/-- C11 amended (no needless relink): in a reachable state, the `Free` of a held
buffer whose segment is first in the active list returns; unless the call retires
that segment (all its buffers are free afterwards and there are more active
segments than the low mark) the segment stays first, with the buffer pushed on its
free list, and the order of the active list is unchanged; when the call retires
the segment, the active list is the former list without its first segment. -/
theorem C11_no_relink {p : CObjectPool} {out : List Buffer} (hr : Reachable p out)
    {b : Buffer} (hb : b ∈ out) {s : SEGMENT} {rest : List SEGMENT}
    (hl : p.m_SegmentsListHead = s :: rest) (hsb : s.base = b.1) :
    ∃ q, Free p b = some q ∧
      (¬ (s.nNumberOfFreeBuffer + 1 = p.m_nNumberOfBuffersInSegment ∧
          p.m_nNumberOfSegments > p.m_nNumberOfSegmentsLowMark) →
        q.m_SegmentsListHead =
            { s with FreeListHead := b.2 :: s.FreeListHead
                     nNumberOfFreeBuffer := s.nNumberOfFreeBuffer + 1 } :: rest ∧
          q.m_SegmentsListHead.map SEGMENT.base = p.m_SegmentsListHead.map SEGMENT.base) ∧
      ((s.nNumberOfFreeBuffer + 1 = p.m_nNumberOfBuffersInSegment ∧
          p.m_nNumberOfSegments > p.m_nNumberOfSegmentsLowMark) →
        q.m_SegmentsListHead = rest) := by
  have h := (reachable_inv hr).1
  have hs : s ∈ p.m_SegmentsListHead := by rw [hl]; exact List.mem_cons_self _ _
  obtain ⟨t, ht, htb, heq⟩ := Free_eq h hb
  have e : t = s := h.same_segment ht hs (by rw [htb, hsb])
  subst e
  refine ⟨_, heq, ?_, ?_⟩
  · intro hret
    rw [freed_list, if_neg hret, h.remove_first hl, hl]
    exact ⟨rfl, rfl⟩
  · intro hret
    rw [freed_list, if_pos hret, h.remove_first hl]

/-- Witness of C11 amended in scenario A: the segment at 65536 is first with two
free buffers; the `Free` of its buffer 2 keeps the order of the active list. -/
theorem C11_no_relink_witness :
    Reachable poolA7 heldA7 ∧ Free poolA7 (65536, 2) = some poolA8 ∧
      poolA8.m_SegmentsListHead.map SEGMENT.base = [65536, 131072] ∧
      ∃ q, Free poolA7 (65536, 2) = some q ∧
        (¬ (2 + 1 = 4 ∧ 2 > 1) →
          q.m_SegmentsListHead =
              [{ base := 65536, FreeListHead := [2, 1, 0], nNumberOfFreeBuffer := 3 },
               { base := 131072, FreeListHead := [2, 1, 0], nNumberOfFreeBuffer := 3 }] ∧
            q.m_SegmentsListHead.map SEGMENT.base = [65536, 131072]) ∧
        ((2 + 1 = 4 ∧ 2 > 1) →
          q.m_SegmentsListHead =
            [{ base := 131072, FreeListHead := [2, 1, 0], nNumberOfFreeBuffer := 3 }]) :=
  ⟨poolA7_reachable, by decide, by decide,
    @C11_no_relink poolA7 heldA7 poolA7_reachable (65536, 2) (by decide)
      { base := 65536, FreeListHead := [1, 0], nNumberOfFreeBuffer := 2 }
      [{ base := 131072, FreeListHead := [2, 1, 0], nNumberOfFreeBuffer := 3 }] rfl rfl⟩

theorem poolA9_reachable : Reachable poolA9 [(131072, 3)] :=
  run_reachable [Call.free (65536, 3)] poolA8 poolA9 heldA8 [(131072, 3)]
    poolA8_reachable (by decide)

/-- C12 (invariant I1): in a reachable state, that is after `create` and after
every completed `Allocate` or `Free`, the free buffer count of the pool is the sum
of the free counts of the active segments, the candidate for deletion left out,
and the free count of every segment, active or candidate, is the length of its
free list. -/
theorem C12_free_count {p : CObjectPool} {out : List Buffer} (hr : Reachable p out) :
    p.m_nFreeBuffers = (p.m_SegmentsListHead.map SEGMENT.nNumberOfFreeBuffer).sum ∧
    (∀ s ∈ p.m_SegmentsListHead, s.nNumberOfFreeBuffer = s.FreeListHead.length) ∧
    (∀ c, p.m_pSegmentCandidateForDeletion = some c →
      c.nNumberOfFreeBuffer = c.FreeListHead.length) := by
  have h := (reachable_inv hr).1
  exact ⟨h.sum, fun s hs => (h.segs s hs).count, fun c hc => (h.cand c hc).1.count⟩

/-- Witness of C12 in scenario A with the first segment parked: 3 free buffers,
all in the active segment at 131072; the candidate has 4 free buffers that are
not counted. -/
theorem C12_free_count_witness :
    Reachable poolA9 [(131072, 3)] ∧
      poolA9.m_nFreeBuffers =
        (poolA9.m_SegmentsListHead.map SEGMENT.nNumberOfFreeBuffer).sum ∧
      (∀ s ∈ poolA9.m_SegmentsListHead, s.nNumberOfFreeBuffer = s.FreeListHead.length) ∧
      (∀ c, poolA9.m_pSegmentCandidateForDeletion = some c →
        c.nNumberOfFreeBuffer = c.FreeListHead.length) ∧
      poolA9.m_nFreeBuffers = 3 :=
  ⟨poolA9_reachable, (C12_free_count poolA9_reachable).1,
    (C12_free_count poolA9_reachable).2.1, (C12_free_count poolA9_reachable).2.2, by decide⟩

/-- C13 (invariant I2): in a reachable state with a candidate for deletion, the
free list of the candidate holds each of its buffers once, no caller holds a
buffer of it, and it is not in the active list. When `Allocate` reactivates it (no
buffer free, number of active segments at most the high mark), the call returns a
buffer of the candidate and leaves all other buffers of it free: the free buffer
count is the number of buffers per segment minus one. -/
theorem C13_candidate_idle {p : CObjectPool} {out : List Buffer} (hr : Reachable p out)
    {c : SEGMENT} (hc : p.m_pSegmentCandidateForDeletion = some c) :
    c.FreeListHead.Nodup ∧ c.FreeListHead.length = p.m_nNumberOfBuffersInSegment ∧
    (∀ i, i < p.m_nNumberOfBuffersInSegment → i ∈ c.FreeListHead) ∧
    (∀ i ∈ c.FreeListHead, i < p.m_nNumberOfBuffersInSegment) ∧
    (∀ b ∈ out, b.1 ≠ c.base) ∧
    c ∉ p.m_SegmentsListHead ∧ c.base ∉ p.m_SegmentsListHead.map SEGMENT.base ∧
    (p.m_nFreeBuffers = 0 →
      p.m_nNumberOfSegments ≤ p.m_nNumberOfSegmentsHighMark →
      ∀ os, ∃ q i, Allocate p os = some (q, some (c.base, i)) ∧
        q.m_nFreeBuffers + 1 = p.m_nNumberOfBuffersInSegment ∧
        q.m_nNumberOfSegments = p.m_nNumberOfSegments + 1 ∧
        q.m_pSegmentCandidateForDeletion = none) := by
  have h := (reachable_inv hr).1
  obtain ⟨hS, hfull⟩ := h.cand c hc
  have hlen : c.FreeListHead.length = p.m_nNumberOfBuffersInSegment := by
    rw [← hS.count, hfull]
  have hnot : c.base ∉ p.m_SegmentsListHead.map SEGMENT.base := by
    intro hm
    rw [List.mem_map] at hm
    obtain ⟨s, hs, e⟩ := hm
    exact h.base_ne hs hc e
  refine ⟨hS.nodup, hlen, fun i hi => nodup_full hS.nodup hS.bound hlen hi, hS.bound,
    ?_, ?_, hnot, ?_⟩
  · intro b hb e
    exact hnot (e ▸ (h.outValid b hb).2)
  · intro hm
    exact hnot (List.mem_map_of_mem SEGMENT.base hm)
  · intro h0 hle os
    rcases Allocate_cases h os with ⟨-, -, hf⟩ | ⟨p1, s, rest, i, fl, -, hl, -, heq, hcase⟩
    · exfalso
      rcases hf with hf | ⟨-, hf, -⟩
      · omega
      · rw [hc] at hf; cases hf
    · rcases hcase with ⟨-, hne⟩ | ⟨d, -, -, hd, e⟩ | ⟨a, -, -, hn, -⟩
      · exact absurd h0 hne
      · rw [hc] at hd
        simp only [Option.some.injEq] at hd
        subst hd
        subst e
        have hsc : s = c := by
          have : (reactivated p c).m_SegmentsListHead = c :: p.m_SegmentsListHead := rfl
          rw [this] at hl
          simp only [List.cons.injEq] at hl
          exact hl.1.symm
        subst hsc
        refine ⟨_, i, heq, ?_, rfl, rfl⟩
        show p.m_nFreeBuffers + p.m_nNumberOfBuffersInSegment - 1 + 1 =
          p.m_nNumberOfBuffersInSegment
        have := h.buffers
        omega
      · rw [hc] at hn; cases hn

/-- Witness of C13 in scenario B: the segment at 131072 is the candidate, no
buffer is free and one segment is active, the high mark; `Allocate` returns
buffer 1 of the candidate and leaves one free buffer. -/
theorem C13_candidate_idle_witness :
    Reachable poolB6 heldB2 ∧
      (∀ b ∈ heldB2, b.1 ≠ 131072) ∧
      (∀ os, ∃ q i, Allocate poolB6 os = some (q, some (131072, i)) ∧
        q.m_nFreeBuffers + 1 = poolB6.m_nNumberOfBuffersInSegment ∧
        q.m_nNumberOfSegments = poolB6.m_nNumberOfSegments + 1 ∧
        q.m_pSegmentCandidateForDeletion = none) ∧
      Allocate poolB6 none = some (poolB3, some (131072, 1)) :=
  ⟨poolB6_reachable,
    (@C13_candidate_idle poolB6 heldB2 poolB6_reachable
      { base := 131072, FreeListHead := [1, 0], nNumberOfFreeBuffer := 2 } rfl).2.2.2.2.1,
    (@C13_candidate_idle poolB6 heldB2 poolB6_reachable
      { base := 131072, FreeListHead := [1, 0], nNumberOfFreeBuffer := 2 } rfl).2.2.2.2.2.2.2
      (by decide) (by decide),
    by decide⟩

/-- When the candidate for deletion is not released by `Free`, it is still the
candidate after the call. -/
theorem freed_cand_kept {p : CObjectPool} {s c : SEGMENT} {i : Nat}
    (hc : p.m_pSegmentCandidateForDeletion = some c)
    (hrel : ¬ p.m_nFreeBuffers > p.m_nCandidateDeletionLimit) :
    (freed p s i).m_pSegmentCandidateForDeletion = some c := by
  have hp2 : releaseCandidate p = p := by
    unfold releaseCandidate
    simp only [hc, if_neg hrel]
  unfold freed
  simp only [hp2, hc]
  split <;> rfl

/-- C14 (no segment leaked or held twice): in a reachable state the regions
mapped from the system and not yet given back are exactly the active segments and
the candidate for deletion, of which there is at most one; they are pairwise
distinct, and the segment counter is the length of the active list. A `Free` that
finds a candidate keeps it as the candidate or has given its region back to the
system: the candidate is never overwritten while mapped. -/
theorem C14_no_leak {p : CObjectPool} {out : List Buffer} (hr : Reachable p out) :
    p.mapped.Perm (p.m_SegmentsListHead.map SEGMENT.base ++
      p.m_pSegmentCandidateForDeletion.toList.map SEGMENT.base) ∧
    (p.m_SegmentsListHead.map SEGMENT.base ++
      p.m_pSegmentCandidateForDeletion.toList.map SEGMENT.base).Nodup ∧
    p.mapped.Nodup ∧
    p.m_nNumberOfSegments = p.m_SegmentsListHead.length ∧
    (∀ b ∈ out, ∀ c, p.m_pSegmentCandidateForDeletion = some c →
      ∃ q, Free p b = some q ∧
        (q.m_pSegmentCandidateForDeletion = some c ∨ c.base ∉ q.mapped)) := by
  have h := (reachable_inv hr).1
  refine ⟨h.held, h.bases, h.mappedNodup, h.segments, ?_⟩
  intro b hb c hc
  obtain ⟨s, hs, -, heq⟩ := Free_eq h hb
  refine ⟨_, heq, ?_⟩
  by_cases hrel : p.m_nFreeBuffers > p.m_nCandidateDeletionLimit
  · exact Or.inr ((freed_mapped h hs hc).2 hrel)
  · exact Or.inl (freed_cand_kept hc hrel)

/-- Witness of C14 in the hysteresis scenario: two regions are mapped, the active
segment at 131072 and the candidate at 65536; after four more calls of `Free` the
fifth parks nothing and gives the candidate back. -/
theorem C14_no_leak_witness :
    Reachable poolH heldH ∧
      poolH.mapped.Perm (poolH.m_SegmentsListHead.map SEGMENT.base ++
        poolH.m_pSegmentCandidateForDeletion.toList.map SEGMENT.base) ∧
      poolH.mapped = [131072, 65536] ∧
      poolH.m_nNumberOfSegments = poolH.m_SegmentsListHead.length ∧
      Reachable poolH4 heldH4 ∧
      (∀ b ∈ heldH4, ∀ c, poolH4.m_pSegmentCandidateForDeletion = some c →
        ∃ q, Free poolH4 b = some q ∧
          (q.m_pSegmentCandidateForDeletion = some c ∨ c.base ∉ q.mapped)) ∧
      Free poolH4 (131072, 4) = some poolH5 ∧ poolH5.mapped = [131072] :=
  ⟨poolH_reachable, (C14_no_leak poolH_reachable).1, by decide,
    (C14_no_leak poolH_reachable).2.2.2.1, poolH4_reachable,
    (C14_no_leak poolH4_reachable).2.2.2.2, by decide, by decide⟩

/-- C15 (exhausted segments form a suffix): in a reachable state no active segment
without a free buffer comes before an active segment with a free buffer; hence
while the pool counts a free buffer the first active segment has a free list that
is not empty, and no call of `Allocate` has undefined behaviour (the result `none`
of the embedding, which stands for a pop from an empty free list or from a list
without a segment): the call returns `NULL` before the pop or pops a buffer. -/
theorem C15_exhausted_suffix {p : CObjectPool} {out : List Buffer} (hr : Reachable p out) :
    p.m_SegmentsListHead.Pairwise
      (fun s t => s.nNumberOfFreeBuffer = 0 → t.nNumberOfFreeBuffer = 0) ∧
    (∀ l1 l2 s t, p.m_SegmentsListHead = l1 ++ s :: l2 → t ∈ l2 →
      s.FreeListHead = [] → t.FreeListHead = []) ∧
    (p.m_nFreeBuffers > 0 →
      ∃ s rest i fl, p.m_SegmentsListHead = s :: rest ∧ s.FreeListHead = i :: fl) ∧
    (∀ os, Allocate p os ≠ none ∧
      ((∃ q, Allocate p os = some (q, none)) ∨
        ∃ q b, Allocate p os = some (q, some b))) := by
  have h := (reachable_inv hr).1
  refine ⟨h.order, ?_, ?_, ?_⟩
  · intro l1 l2 s t hl ht hs
    have hord := h.order
    rw [hl, List.pairwise_append, List.pairwise_cons] at hord
    have hsm : s ∈ p.m_SegmentsListHead := by rw [hl]; simp
    have htm : t ∈ p.m_SegmentsListHead := by
      rw [hl]; exact List.mem_append_right _ (List.mem_cons_of_mem _ ht)
    have h0 : s.nNumberOfFreeBuffer = 0 := by rw [(h.segs s hsm).count, hs]; rfl
    have h1 := hord.2.1.1 t ht h0
    rw [(h.segs t htm).count] at h1
    exact List.length_eq_zero.1 h1
  · intro hpos
    exact h.first (by omega)
  · intro os
    rcases Allocate_cases h os with ⟨hf, -⟩ | ⟨p1, s, rest, i, fl, -, -, hfl, heq, -⟩
    · exact ⟨by rw [hf]; simp, Or.inl ⟨p, hf⟩⟩
    · exact ⟨by rw [heq]; simp, Or.inr ⟨_, _, heq⟩⟩

/-- Witness of C15 in scenario A after five calls of `Allocate`: the exhausted
segment at 65536 is last, the first segment has free buffers, and `Allocate`
pops buffer 2 from it. -/
theorem C15_exhausted_suffix_witness :
    Reachable poolA5 heldA5 ∧
      poolA5.m_SegmentsListHead.map SEGMENT.nNumberOfFreeBuffer = [3, 0] ∧
      poolA5.m_SegmentsListHead.Pairwise
        (fun s t => s.nNumberOfFreeBuffer = 0 → t.nNumberOfFreeBuffer = 0) ∧
      (poolA5.m_nFreeBuffers > 0 →
        ∃ s rest i fl, poolA5.m_SegmentsListHead = s :: rest ∧ s.FreeListHead = i :: fl) ∧
      (Allocate poolA5 none).map Prod.snd = some (some (131072, 2)) :=
  ⟨poolA5_reachable, by decide, (C15_exhausted_suffix poolA5_reachable).1,
    (C15_exhausted_suffix poolA5_reachable).2.2.1, by decide⟩

/-! ## Addresses -/

theorem initBuffers_get (P : Nat) (hP : 0 < P) :
    ∀ (n i0 p k : Nat), k < n → p + n * (4 + P) ≤ WORD → i0 + n ≤ WORD →
      (initBuffers P n i0 p)[k]? = some (p + k * (4 + P) + 4, i0 + k) := by
  have h4 : sizeofBUFFER_HEADER = 4 := rfl
  intro n
  induction n with
  | zero => intro i0 p k hk; omega
  | succ n ih =>
    intro i0 p k hk hfit hidx
    rw [Nat.succ_mul] at hfit
    have e1 : uadd p sizeofBUFFER_HEADER = p + 4 := by
      rw [h4]; exact uadd_eq (by omega)
    cases k with
    | zero =>
      simp only [initBuffers, List.getElem?_cons_zero, e1]
      simp
    | succ k =>
      have hn : 0 < n := by omega
      have hc : 4 + P ≤ n * (4 + P) := Nat.le_mul_of_pos_left _ hn
      have e2 : uadd (p + 4) P = p + 4 + P := uadd_eq (by omega)
      have e3 : uadd i0 1 = i0 + 1 := uadd_eq (by omega)
      simp only [initBuffers, List.getElem?_cons_succ, e1, e2, e3]
      rw [ih (i0 + 1) (p + 4 + P) k (by omega) (by omega) (by omega), Nat.succ_mul]
      congr 2 <;> omega

/-- C16 (owning segment recovery): for a segment at address `s` that lies in the
address space with its `n` buffers of payload size `P`, at least the size of a
free list link, and for every index `i < n`: the loop of `AllocateSegment` puts
the payload of buffer `i` at `s + sizeof(SEGMENT) + i * (sizeof(BUFFER_HEADER) + P)
+ sizeof(BUFFER_HEADER)` and stores `i` in the header before it, and the
arithmetic of `Free` applied to that payload address and that index gives `s`. -/
theorem C16_owning_segment (s P n i : Nat) (hP : sizeofSLINK ≤ P) (hi : i < n)
    (hfit : s + sizeofSEGMENT + n * (sizeofBUFFER_HEADER + P) ≤ WORD) :
    (segmentBuffers s P n)[i]? =
      some (s + sizeofSEGMENT + i * (sizeofBUFFER_HEADER + P) + sizeofBUFFER_HEADER, i) ∧
    owningSegment P
      (s + sizeofSEGMENT + i * (sizeofBUFFER_HEADER + P) + sizeofBUFFER_HEADER) i = s := by
  have h4 : sizeofBUFFER_HEADER = 4 := rfl
  have h16 : sizeofSEGMENT = 16 := rfl
  have hl : sizeofSLINK = 4 := rfl
  rw [h4, h16] at hfit
  rw [hl] at hP
  rw [h4, h16]
  have hin : i * (4 + P) + (4 + P) ≤ n * (4 + P) := by
    have : (i + 1) * (4 + P) ≤ n * (4 + P) := Nat.mul_le_mul_right _ hi
    rw [Nat.succ_mul] at this
    exact this
  constructor
  · unfold segmentBuffers
    have e0 : uadd s sizeofSEGMENT = s + 16 := by rw [h16]; exact uadd_eq (by omega)
    have hn : n ≤ n * (4 + P) := Nat.le_mul_of_pos_right _ (by omega)
    rw [e0, initBuffers_get P (by omega) n 0 (s + 16) i hi (by omega) (by omega)]
    simp
  · unfold owningSegment
    have e1 : usub (s + 16 + i * (4 + P) + 4) sizeofBUFFER_HEADER = s + 16 + i * (4 + P) := by
      rw [h4, usub_eq (by omega) (by omega)]
      omega
    have e2 : uadd sizeofBUFFER_HEADER P = 4 + P := by
      rw [h4]; exact uadd_eq (by omega)
    have e3 : umul i (4 + P) = i * (4 + P) := by
      unfold umul; exact Nat.mod_eq_of_lt (by omega)
    have e4 : usub (s + 16 + i * (4 + P)) (i * (4 + P)) = s + 16 := by
      rw [usub_eq (by omega) (by omega)]
      omega
    have e5 : usub (s + 16) sizeofSEGMENT = s := by
      rw [h16, usub_eq (by omega) (by omega)]
      omega
    simp only [e1, e2, e3, e4, e5]

/-- Witness of C16: a segment at 65536 with 4 buffers of 16 bytes; buffer 3 has its
payload at 65616, and `Free` finds the segment at 65536 from it. -/
theorem C16_owning_segment_witness :
    (segmentBuffers 65536 16 4)[3]? = some (65536 + 16 + 3 * (4 + 16) + 4, 3) ∧
      owningSegment 16 (65536 + 16 + 3 * (4 + 16) + 4) 3 = 65536 ∧
      segmentBuffers 65536 16 4 = [(65556, 0), (65576, 1), (65596, 2), (65616, 3)] :=
  ⟨(C16_owning_segment 65536 16 4 3 (by decide) (by decide) (by decide)).1,
    (C16_owning_segment 65536 16 4 3 (by decide) (by decide) (by decide)).2, by decide⟩

/-- The pool just before the last line of `Free` (line 260), when the call
retires the segment: its free buffer count is the count at entry minus the
number of buffers per segment, modulo `2 ^ 32`. -/
theorem Free_before_increment {p : CObjectPool} {out : List Buffer} {b : Buffer}
    {s : SEGMENT} (h : Inv p out) (hb : b ∈ out) (hs : s ∈ p.m_SegmentsListHead)
    (hsb : s.base = b.1)
    (hret : s.nNumberOfFreeBuffer + 1 = p.m_nNumberOfBuffersInSegment ∧
      p.m_nNumberOfSegments > p.m_nNumberOfSegmentsLowMark) :
    Free p b = some
        { retireSegment (releaseCandidate (pushBuffer p s b.2).1) (pushBuffer p s b.2).2 with
          m_nFreeBuffers := uadd (retireSegment (releaseCandidate (pushBuffer p s b.2).1)
            (pushBuffer p s b.2).2).m_nFreeBuffers 1 } ∧
      (retireSegment (releaseCandidate (pushBuffer p s b.2).1)
        (pushBuffer p s b.2).2).m_nFreeBuffers =
        usub p.m_nFreeBuffers p.m_nNumberOfBuffersInSegment := by
  obtain ⟨t, hfind⟩ := find_base_exists (h.outValid b hb).2
  obtain ⟨ht, htb⟩ := find_base hfind
  have e : t = s := h.same_segment ht hs (by rw [htb, hsb])
  subst e
  have hb2 : (t.base, b.2) ∈ out := by rw [htb]; exact hb
  have hF := releaseCandidate_fields p
  constructor
  · unfold Free
    rw [hfind]
  · simp only [pushBuffer_eq h ht hb2, releaseCandidate_list]
    unfold retireSegment FreeSegment
    simp only [hF.1, hF.2.1, hF.2.2.1, hF.2.2.2.1]
    rw [if_pos hret]
    cases (releaseCandidate p).m_pSegmentCandidateForDeletion with
    | none => simp only [hF.1, hF.2.2.2.1]
    | some c => simp only [hF.1, hF.2.2.2.1]

/-- C17 (retirement arithmetic): counters are 32 bit unsigned. In a reachable
state, let `Free` retire the segment of a held buffer (all buffers of the segment
are free afterwards and there are more active segments than the low mark). Then
the free buffer count at entry is at least the number of buffers per segment
minus one; the count before the final increment is the entry count minus the
number of buffers per segment modulo `2 ^ 32`, which is `2 ^ 32 - 1` exactly when
the entry count is the number of buffers per segment minus one; and the count
after the call is the entry count plus one minus the number of buffers per
segment, as natural numbers. -/
theorem C17_retirement_arithmetic {p : CObjectPool} {out : List Buffer}
    (hr : Reachable p out) {b : Buffer} (hb : b ∈ out) {s : SEGMENT}
    (hs : s ∈ p.m_SegmentsListHead) (hsb : s.base = b.1)
    (hret : s.nNumberOfFreeBuffer + 1 = p.m_nNumberOfBuffersInSegment ∧
      p.m_nNumberOfSegments > p.m_nNumberOfSegmentsLowMark) :
    p.m_nNumberOfBuffersInSegment - 1 ≤ p.m_nFreeBuffers ∧
    (retireSegment (releaseCandidate (pushBuffer p s b.2).1)
      (pushBuffer p s b.2).2).m_nFreeBuffers =
      usub p.m_nFreeBuffers p.m_nNumberOfBuffersInSegment ∧
    (usub p.m_nFreeBuffers p.m_nNumberOfBuffersInSegment = WORD - 1 ↔
      p.m_nFreeBuffers = p.m_nNumberOfBuffersInSegment - 1) ∧
    ∃ q, Free p b = some q ∧
      q.m_nFreeBuffers = uadd (usub p.m_nFreeBuffers p.m_nNumberOfBuffersInSegment) 1 ∧
      q.m_nFreeBuffers + p.m_nNumberOfBuffersInSegment = p.m_nFreeBuffers + 1 := by
  have h := (reachable_inv hr).1
  have hlt := h.free_lt
  have hB := Nat.pos_of_ne_zero h.buffers
  have hperm := DLINK_Remove_perm h.activeNodup hs
  have hsum : p.m_nFreeBuffers = s.nNumberOfFreeBuffer +
      ((DLINK_Remove s.base p.m_SegmentsListHead).map SEGMENT.nNumberOfFreeBuffer).sum := by
    rw [h.sum, (hperm.map SEGMENT.nNumberOfFreeBuffer).sum_eq]
    rfl
  have hge : p.m_nNumberOfBuffersInSegment ≤ p.m_nFreeBuffers + 1 := by omega
  obtain ⟨hfree, hmid⟩ := Free_before_increment h hb hs hsb hret
  have hfin := usub_uadd_one hge hlt.1 hB hlt.2.2
  refine ⟨by omega, hmid, ?_, _, hfree, ?_, ?_⟩
  · constructor
    · intro hw
      by_contra hne
      have hle : p.m_nNumberOfBuffersInSegment ≤ p.m_nFreeBuffers := by omega
      rw [usub_eq hle hlt.1] at hw
      omega
    · intro he
      unfold usub
      rw [Nat.mod_eq_of_lt hlt.2.2]
      have : p.m_nFreeBuffers + (WORD - p.m_nNumberOfBuffersInSegment) = WORD - 1 := by omega
      rw [this]
      exact Nat.mod_eq_of_lt (by have : 0 < WORD := Nat.two_pow_pos 32; omega)
  · show uadd _ 1 = _
    rw [hmid]
  · show uadd _ 1 + _ = _
    rw [hmid, hfin]
    omega

/-- Witness of C17 in scenario B: with one free buffer and two buffers per
segment, the `Free` of the last held buffer of the segment at 131072 parks the
segment; the count wraps to `2 ^ 32 - 1` before the final increment and is 0
after the call. -/
theorem C17_retirement_arithmetic_witness :
    Reachable poolB3 heldB3 ∧
      poolB3.m_nNumberOfBuffersInSegment - 1 ≤ poolB3.m_nFreeBuffers ∧
      (retireSegment (releaseCandidate (pushBuffer poolB3
          { base := 131072, FreeListHead := [0], nNumberOfFreeBuffer := 1 } 1).1)
        (pushBuffer poolB3
          { base := 131072, FreeListHead := [0], nNumberOfFreeBuffer := 1 } 1).2).m_nFreeBuffers =
        usub poolB3.m_nFreeBuffers poolB3.m_nNumberOfBuffersInSegment ∧
      usub poolB3.m_nFreeBuffers poolB3.m_nNumberOfBuffersInSegment = 4294967295 ∧
      Free poolB3 (131072, 1) = some poolB6 ∧ poolB6.m_nFreeBuffers = 0 :=
  ⟨poolB3_reachable,
    (@C17_retirement_arithmetic poolB3 heldB3 poolB3_reachable (131072, 1) (by decide)
      { base := 131072, FreeListHead := [0], nNumberOfFreeBuffer := 1 }
      (by decide) rfl (by decide)).1,
    (@C17_retirement_arithmetic poolB3 heldB3 poolB3_reachable (131072, 1) (by decide)
      { base := 131072, FreeListHead := [0], nNumberOfFreeBuffer := 1 }
      (by decide) rfl (by decide)).2.1,
    by decide, by decide, by decide⟩

/-- C18 (tight upper bound on active segments): in every reachable state the
number of active segments is at most the high mark plus one; in a reachable state
with no free buffer and as many active segments as the high mark, every `Allocate`
that has a candidate to reactivate or that the system serves returns a buffer and
leaves one segment more than the high mark; and such states are reached, once
with growth (no candidate, the system maps a segment) and once with the
reactivation of the candidate. -/
theorem C18_tight_bound :
    (∀ p out, Reachable p out →
      p.m_nNumberOfSegments ≤ p.m_nNumberOfSegmentsHighMark + 1 ∧
      (p.m_nFreeBuffers = 0 → p.m_nNumberOfSegments = p.m_nNumberOfSegmentsHighMark →
        ∀ os, (p.m_pSegmentCandidateForDeletion ≠ none ∨
            VirtualAlloc p.mapped (segment_size p) os ≠ none) →
          ∃ q b, Allocate p os = some (q, some b) ∧
            q.m_nNumberOfSegmentsHighMark = p.m_nNumberOfSegmentsHighMark ∧
            q.m_nNumberOfSegments = p.m_nNumberOfSegmentsHighMark + 1)) ∧
    (∃ p out os q b, Reachable p out ∧ p.m_nFreeBuffers = 0 ∧
      p.m_nNumberOfSegments = p.m_nNumberOfSegmentsHighMark ∧
      p.m_pSegmentCandidateForDeletion = none ∧
      Allocate p os = some (q, some b) ∧ Reachable q (b :: out) ∧
      q.m_nNumberOfSegments = q.m_nNumberOfSegmentsHighMark + 1) ∧
    (∃ p out os q b, Reachable p out ∧ p.m_nFreeBuffers = 0 ∧
      p.m_nNumberOfSegments = p.m_nNumberOfSegmentsHighMark ∧
      p.m_pSegmentCandidateForDeletion ≠ none ∧
      Allocate p os = some (q, some b) ∧ Reachable q (b :: out) ∧
      q.m_nNumberOfSegments = q.m_nNumberOfSegmentsHighMark + 1) := by
  refine ⟨?_, ?_, ?_⟩
  · intro p out hr
    obtain ⟨h, -, hhigh⟩ := reachable_inv hr
    refine ⟨hhigh, ?_⟩
    intro h0 heq os hos
    rcases Allocate_cases h os with ⟨-, -, hf⟩ | ⟨p1, s, rest, i, fl, -, -, -, ha, hcase⟩
    · exfalso
      rcases hf with hf | ⟨-, hf1, hf2⟩
      · omega
      · rcases hos with hos | hos
        · exact hos hf1
        · exact hos hf2
    · refine ⟨_, _, ha, ?_⟩
      rcases hcase with ⟨-, hne⟩ | ⟨c, -, -, -, e⟩ | ⟨a, -, -, -, -, e⟩
      · exact absurd h0 hne
      · subst e
        refine ⟨rfl, ?_⟩
        show p.m_nNumberOfSegments + 1 = _
        omega
      · subst e
        refine ⟨rfl, ?_⟩
        show p.m_nNumberOfSegments + 1 = _
        omega
  · exact ⟨poolB2, heldB2, some 131072, poolB3, (131072, 1), poolB2_reachable,
      by decide, by decide, by decide, by decide, poolB3_reachable, by decide⟩
  · exact ⟨poolB6, heldB2, none, poolB3, (131072, 1), poolB6_reachable,
      by decide, by decide, by decide, by decide, poolB3_reachable, by decide⟩

theorem freed_no_retire {p : CObjectPool} {s : SEGMENT} {i : Nat}
    (hnr : ¬ (s.nNumberOfFreeBuffer + 1 = p.m_nNumberOfBuffersInSegment ∧
      p.m_nNumberOfSegments > p.m_nNumberOfSegmentsLowMark)) :
    freed p s i =
      { releaseCandidate p with
        m_SegmentsListHead :=
          { s with FreeListHead := i :: s.FreeListHead
                   nNumberOfFreeBuffer := s.nNumberOfFreeBuffer + 1 } ::
            DLINK_Remove s.base p.m_SegmentsListHead
        m_nFreeBuffers := p.m_nFreeBuffers + 1 } := by
  unfold freed
  simp only [if_neg hnr]

/-- C19 as stated fails in the hysteresis scenario: the segment at 65536 is the
candidate and 4 buffers are free, more than the limit 3. The `Free` of buffer 4 of
the segment at 131072 does not retire that segment and the following `Allocate`
returns the same buffer, but the pool is not back in the state before the
`Free`: the candidate was released, so the candidate and the mapped regions
differ. -/
theorem C19_counterexample :
    Reachable poolH4 heldH4 ∧ ((131072, 4) : Buffer) ∈ heldH4 ∧
      Free poolH4 (131072, 4) = some poolH5 ∧
      poolH5.m_SegmentsListHead =
        [{ base := 131072, FreeListHead := [4, 3, 2, 1, 0], nNumberOfFreeBuffer := 5 }] ∧
      poolH5.m_nNumberOfSegments = poolH4.m_nNumberOfSegments ∧
      Allocate poolH5 none = some (poolH6, some (131072, 4)) ∧
      poolH6.m_SegmentsListHead = poolH4.m_SegmentsListHead ∧
      poolH6.m_pSegmentCandidateForDeletion ≠ poolH4.m_pSegmentCandidateForDeletion ∧
      poolH6.mapped ≠ poolH4.mapped :=
  ⟨poolH4_reachable, by decide, by decide, by decide, by decide, by decide, by decide,
    by decide, by decide⟩

/-- C19 amended (reuse of the buffer freed last): in a reachable state, let the
`Free` of a held buffer not retire the segment of the buffer. Then `Free` returns
and the `Allocate` that follows returns exactly that buffer, whatever the system
would answer; the pool after that `Allocate` is the pool before the `Free` after
the release check of lines 227-238, with the segment of the buffer moved to the
front of the active list, or to its tail when the segment has no free buffer.
When there was no candidate for deletion or the free buffer count at entry of
`Free` did not exceed the deletion limit, this is the pool before the `Free` but
for the position of the segment in the active list. -/
theorem C19_lifo_reuse {p : CObjectPool} {out : List Buffer} (hr : Reachable p out)
    {b : Buffer} (hb : b ∈ out) {s : SEGMENT} (hs : s ∈ p.m_SegmentsListHead)
    (hsb : s.base = b.1)
    (hnr : ¬ (s.nNumberOfFreeBuffer + 1 = p.m_nNumberOfBuffersInSegment ∧
      p.m_nNumberOfSegments > p.m_nNumberOfSegmentsLowMark)) :
    (∃ q, Free p b = some q ∧
      ∀ os, Allocate q os =
        some ({ releaseCandidate p with
                m_SegmentsListHead :=
                  if s.nNumberOfFreeBuffer = 0
                  then p.m_SegmentsListHead.erase s ++ [s]
                  else s :: p.m_SegmentsListHead.erase s }, some b)) ∧
    ((p.m_pSegmentCandidateForDeletion = none ∨
        ¬ p.m_nFreeBuffers > p.m_nCandidateDeletionLimit) →
      releaseCandidate p = p) := by
  have h := (reachable_inv hr).1
  obtain ⟨t, ht, htb, heq⟩ := Free_eq h hb
  have e : t = s := h.same_segment ht hs (by rw [htb, hsb])
  subst e
  have hq := (reachable_inv (Reachable.free hr hb heq)).1
  have hF := releaseCandidate_fields p
  constructor
  · refine ⟨_, heq, fun os => ?_⟩
    rw [Allocate_eq hq os]
    have hne : (freed p t b.2).m_nFreeBuffers ≠ 0 := by
      rw [freed_free, if_neg hnr]; omega
    rw [if_neg hne]
    have hl : (freed p t b.2).m_SegmentsListHead =
        { t with FreeListHead := b.2 :: t.FreeListHead
                 nNumberOfFreeBuffer := t.nNumberOfFreeBuffer + 1 } ::
          DLINK_Remove t.base p.m_SegmentsListHead := by
      rw [freed_list, if_neg hnr]
    rw [takeBuffer_eq hq hl rfl, freed_no_retire hnr, DLINK_Remove_eq_erase h.activeNodup hs]
    unfold took
    simp only [Nat.add_sub_cancel, ← hF.2.2.2.1]
    have hbe : (t.base, b.2) = b := by rw [htb]
    rw [hbe]
  · intro hno
    unfold releaseCandidate
    rcases hno with hno | hno
    · simp only [hno]
    · split
      · simp only [if_neg hno]
      · rfl

/-- Witness of C19 amended in scenario A: with two buffers of the first segment
free, the `Free` of its buffer 2 does not retire the segment, and the `Allocate`
that follows returns buffer 2 of the segment at 65536 and restores the pool. -/
theorem C19_lifo_reuse_witness :
    Reachable poolA7 heldA7 ∧
      (∃ q, Free poolA7 (65536, 2) = some q ∧
        ∀ os, Allocate q os =
          some ({ releaseCandidate poolA7 with
                  m_SegmentsListHead :=
                    if (2 : Nat) = 0
                    then poolA7.m_SegmentsListHead.erase
                        { base := 65536, FreeListHead := [1, 0], nNumberOfFreeBuffer := 2 } ++
                      [{ base := 65536, FreeListHead := [1, 0], nNumberOfFreeBuffer := 2 }]
                    else { base := 65536, FreeListHead := [1, 0], nNumberOfFreeBuffer := 2 } ::
                      poolA7.m_SegmentsListHead.erase
                        { base := 65536, FreeListHead := [1, 0], nNumberOfFreeBuffer := 2 } },
            some (65536, 2))) ∧
      Allocate poolA8 none = some (poolA7, some (65536, 2)) :=
  ⟨poolA7_reachable,
    (@C19_lifo_reuse poolA7 heldA7 poolA7_reachable (65536, 2) (by decide)
      { base := 65536, FreeListHead := [1, 0], nNumberOfFreeBuffer := 2 }
      (by decide) rfl (by decide)).1,
    by decide⟩

theorem releaseCandidate_mapped_mem {p : CObjectPool} {out : List Buffer} (h : Inv p out)
    {s : SEGMENT} (hs : s ∈ p.m_SegmentsListHead) :
    s.base ∈ (releaseCandidate p).mapped := by
  have hm := h.active_mapped hs
  unfold releaseCandidate
  cases hc : p.m_pSegmentCandidateForDeletion with
  | none => exact hm
  | some c =>
    simp only
    split
    · exact (List.mem_erase_of_ne (h.base_ne hs hc)).2 hm
    · exact hm

theorem freed_mapped_park {p : CObjectPool} {s : SEGMENT} {i : Nat}
    (hnc : (releaseCandidate p).m_pSegmentCandidateForDeletion = none) :
    (freed p s i).mapped = (releaseCandidate p).mapped := by
  unfold freed
  simp only [hnc]
  split <;> rfl

/-- C20 (no direct unmap below the top limit): in a reachable state of a pool
whose deletion limit is strictly less than the number of buffers per segment
minus one, `Free` of a held buffer never reaches the call of `FreeSegment` at
line 247: the segment is not idle, or the active segments are not more than the
low mark, or no candidate is left after the release check. The call returns and
the segment of the buffer stays mapped; when the segment became idle with more
active segments than the low mark, a candidate that existed at entry has been
given back to the system and the segment is the new candidate. -/
theorem C20_no_direct_unmap {p : CObjectPool} {out : List Buffer} (hr : Reachable p out)
    (hlimit : p.m_nCandidateDeletionLimit + 1 < p.m_nNumberOfBuffersInSegment)
    {b : Buffer} (hb : b ∈ out) {s : SEGMENT} (hs : s ∈ p.m_SegmentsListHead)
    (hsb : s.base = b.1) :
    ¬ ((pushBuffer p s b.2).2.nNumberOfFreeBuffer =
          (releaseCandidate (pushBuffer p s b.2).1).m_nNumberOfBuffersInSegment ∧
        (releaseCandidate (pushBuffer p s b.2).1).m_nNumberOfSegments >
          (releaseCandidate (pushBuffer p s b.2).1).m_nNumberOfSegmentsLowMark ∧
        (releaseCandidate (pushBuffer p s b.2).1).m_pSegmentCandidateForDeletion ≠ none) ∧
    ∃ q, Free p b = some q ∧ s.base ∈ q.mapped ∧
      ((s.nNumberOfFreeBuffer + 1 = p.m_nNumberOfBuffersInSegment ∧
          p.m_nNumberOfSegments > p.m_nNumberOfSegmentsLowMark) →
        q.m_pSegmentCandidateForDeletion =
            some { base := s.base, FreeListHead := b.2 :: s.FreeListHead
                   nNumberOfFreeBuffer := p.m_nNumberOfBuffersInSegment } ∧
          s.base ∉ q.m_SegmentsListHead.map SEGMENT.base ∧
          ∀ c, p.m_pSegmentCandidateForDeletion = some c → c.base ∉ q.mapped) := by
  have h := (reachable_inv hr).1
  obtain ⟨t, ht, htb, heq⟩ := Free_eq h hb
  have e : t = s := h.same_segment ht hs (by rw [htb, hsb])
  subst e
  have hb2 : (t.base, b.2) ∈ out := by rw [htb]; exact hb
  have hq := (reachable_inv (Reachable.free hr hb heq)).1
  have hF := releaseCandidate_fields p
  have hperm := DLINK_Remove_perm h.activeNodup hs
  have hsum : p.m_nFreeBuffers = t.nNumberOfFreeBuffer +
      ((DLINK_Remove t.base p.m_SegmentsListHead).map SEGMENT.nNumberOfFreeBuffer).sum := by
    rw [h.sum, (hperm.map SEGMENT.nNumberOfFreeBuffer).sum_eq]
    rfl
  have hgt : t.nNumberOfFreeBuffer + 1 = p.m_nNumberOfBuffersInSegment →
      p.m_nFreeBuffers > p.m_nCandidateDeletionLimit := fun hfull => by omega
  have hnone : t.nNumberOfFreeBuffer + 1 = p.m_nNumberOfBuffersInSegment →
      (releaseCandidate p).m_pSegmentCandidateForDeletion = none := fun hfull =>
    releaseCandidate_none (Or.inr (hgt hfull))
  have hcases : (releaseCandidate p).m_pSegmentCandidateForDeletion = none ∨
      ¬ (t.nNumberOfFreeBuffer + 1 = p.m_nNumberOfBuffersInSegment ∧
        p.m_nNumberOfSegments > p.m_nNumberOfSegmentsLowMark) := by
    by_cases hfull : t.nNumberOfFreeBuffer + 1 = p.m_nNumberOfBuffersInSegment
    · exact Or.inl (hnone hfull)
    · exact Or.inr (fun hret => hfull hret.1)
  refine ⟨?_, _, heq, ?_, ?_⟩
  · simp only [pushBuffer_eq h ht hb2, releaseCandidate_list, hF.1]
    rintro ⟨hfull, -, hc⟩
    exact hc (hnone hfull)
  · have hm : (freed p t b.2).mapped = (releaseCandidate p).mapped := by
      rcases hcases with hc | hnr
      · exact freed_mapped_park hc
      · rw [freed_no_retire hnr]
    rw [hm]
    exact releaseCandidate_mapped_mem h ht
  · intro hret
    obtain ⟨f1, f2⟩ := @freed_park p t b.2 hret (Or.inr (hgt hret.1))
    refine ⟨f1, ?_, ?_⟩
    · rw [f2]
      intro hm
      rw [List.mem_map] at hm
      obtain ⟨x, hx, hxb⟩ := hm
      exact (mem_DLINK_Remove.1 hx).2 hxb
    · intro c hc
      exact (freed_mapped h ht hc).2 (hgt hret.1)

theorem poolC_reachable : Reachable poolC heldC :=
  run_reachable callsC poolC0 poolC [] heldC
    (@Reachable.create 4096 16 2 1 1 2 0 (fun _ => some 65536) poolC0
      (by
        unfold CreateContract
        exact ⟨by decide, by decide, by decide, by decide, by decide, by decide, by decide,
          ⟨12, by decide, by decide⟩, by decide⟩)
      (by decide))
    (by decide)

/-- Witness of C20 in scenario C (deletion limit 0, two buffers per segment): the
segment at 196608 is the candidate and one buffer is free; the `Free` of the last
held buffer of the segment at 131072 gives the candidate back to the system and
parks the segment at 131072, which stays mapped. -/
theorem C20_no_direct_unmap_witness :
    Reachable poolC heldC ∧
      poolC.m_nCandidateDeletionLimit + 1 < poolC.m_nNumberOfBuffersInSegment ∧
      (∃ q, Free poolC (131072, 1) = some q ∧ (131072 : Nat) ∈ q.mapped ∧
        (((1 : Nat) + 1 = poolC.m_nNumberOfBuffersInSegment ∧
            poolC.m_nNumberOfSegments > poolC.m_nNumberOfSegmentsLowMark) →
          q.m_pSegmentCandidateForDeletion =
              some { base := 131072, FreeListHead := [1, 0]
                     nNumberOfFreeBuffer := poolC.m_nNumberOfBuffersInSegment } ∧
            (131072 : Nat) ∉ q.m_SegmentsListHead.map SEGMENT.base ∧
            ∀ c, poolC.m_pSegmentCandidateForDeletion = some c → c.base ∉ q.mapped)) ∧
      Free poolC (131072, 1) = some poolC1 ∧ poolC1.mapped = [131072, 65536] :=
  ⟨poolC_reachable, by decide,
    (@C20_no_direct_unmap poolC heldC poolC_reachable (by decide) (131072, 1) (by decide)
      { base := 131072, FreeListHead := [0], nNumberOfFreeBuffer := 1 }
      (by decide) rfl).2,
    by decide, by decide⟩

end ObjectPool
